import Mathlib

/-
Verification of the track-reconstruction pipeline (Go sources in package
`track` and `models`) against its natural-language specification.

Modelling conventions, used throughout:

* Go `float64` is embedded as `F64`: either an exact rational value `F64.v q`
  or the single non-finite value `F64.nf` (the code under verification only
  ever tests non-finiteness through `math.IsNaN(v) || math.IsInf(v, 0)`, so
  NaN and the two infinities are collapsed into one value).  Arithmetic on
  finite values is exact rational arithmetic; every arithmetic operation with
  a non-finite operand yields `F64.nf`, and division by zero yields `F64.nf`.
  Go ordered comparisons return `false` whenever an operand is non-finite,
  exactly as float comparisons involving NaN do.
* The transcendental library functions used by the code (`math.Cos`,
  `math.Sin`, `math.Atan2`, `math.Sqrt`, `math.Hypot`) are abstracted as the
  fields of a `NumModel`, together with the two properties of `math.Hypot`
  that the proofs rely on (a hypot of finite arguments is finite and
  non-negative, and `Hypot(x, 0) = |x|`).  Every theorem is proved for an
  arbitrary model; concrete evaluations instantiate the executable model
  `cmodel`.
* Go `int` is embedded as `ℤ` (list indices that the code keeps non-negative
  are embedded as `ℕ`).  Go slices are Lean lists; a `nil` result of an
  optional computation is `Option.none`.
-/

set_option maxHeartbeats 1000000

set_option allowUnsafeReducibility true

attribute [local semireducible] Rat.add Rat.mul Rat.sub Rat.div Rat.neg Rat.inv

/-- Embedded `float64`: an exact rational or the collapsed non-finite value. -/
inductive F64 where
  | v (q : ℚ)
  | nf
  deriving DecidableEq, Repr

/-- Shorthand for embedding a rational literal as a finite `float64`. -/
def fq (q : ℚ) : F64 := F64.v q

/-- Go `+` on float64. -/
def fadd : F64 → F64 → F64
  | F64.v a, F64.v b => F64.v (a + b)
  | _, _ => F64.nf

/-- Go `-` (binary) on float64. -/
def fsub : F64 → F64 → F64
  | F64.v a, F64.v b => F64.v (a - b)
  | _, _ => F64.nf

/-- Go `*` on float64. -/
def fmul : F64 → F64 → F64
  | F64.v a, F64.v b => F64.v (a * b)
  | _, _ => F64.nf

/-- Go `/` on float64: a zero divisor produces a non-finite value. -/
def fdiv : F64 → F64 → F64
  | F64.v a, F64.v b => if b = 0 then F64.nf else F64.v (a / b)
  | _, _ => F64.nf

/-- Go `math.Abs`. -/
def fabs : F64 → F64
  | F64.v a => F64.v |a|
  | F64.nf => F64.nf

/-- Go `<` on float64: false when an operand is non-finite (NaN semantics). -/
def flt : F64 → F64 → Bool
  | F64.v a, F64.v b => decide (a < b)
  | _, _ => false

/-- Go `<=` on float64: false when an operand is non-finite (NaN semantics). -/
def fle : F64 → F64 → Bool
  | F64.v a, F64.v b => decide (a ≤ b)
  | _, _ => false

/-- Go `math.IsNaN(v) || math.IsInf(v, 0)`. -/
def fisNF : F64 → Bool
  | F64.nf => true
  | F64.v _ => false

theorem fadd_comm (x y : F64) : fadd x y = fadd y x := by
  cases x <;> cases y <;> simp [fadd, Rat.add_comm]

theorem fadd_assoc (x y z : F64) : fadd (fadd x y) z = fadd x (fadd y z) := by
  cases x <;> cases y <;> cases z <;> simp [fadd, Rat.add_assoc]

instance : Std.Commutative fadd := ⟨fadd_comm⟩

instance : Std.Associative fadd := ⟨fadd_assoc⟩

/-- Abstraction of the `math` library functions used by the pipeline, with
the two facts about `math.Hypot` the development relies on. -/
structure NumModel where
  cos : F64 → F64
  sin : F64 → F64
  atan2 : F64 → F64 → F64
  sqrt : F64 → F64
  hypot : F64 → F64 → F64
  cos_fin : ∀ q : ℚ, ∃ r : ℚ, cos (F64.v q) = F64.v r
  sin_fin : ∀ q : ℚ, ∃ r : ℚ, sin (F64.v q) = F64.v r
  hypot_fin : ∀ a b : ℚ, ∃ c : ℚ, 0 ≤ c ∧ hypot (F64.v a) (F64.v b) = F64.v c
  hypot_x_zero : ∀ a : ℚ, hypot (F64.v a) (F64.v 0) = F64.v |a|

/-- Executable hypot model used for concrete evaluations: the taxicab norm,
which satisfies both `NumModel` facts. -/
def chypot : F64 → F64 → F64
  | F64.v a, F64.v b => F64.v (|a| + |b|)
  | _, _ => F64.nf

/-- Concrete executable `NumModel` instance used by witnesses and
counterexamples. -/
def cmodel : NumModel where
  cos := fun _ => F64.v 1
  sin := fun _ => F64.v 0
  atan2 := fun _ _ => F64.v 0
  sqrt := fun x => x
  hypot := chypot
  cos_fin := fun _ => ⟨1, rfl⟩
  sin_fin := fun _ => ⟨0, rfl⟩
  hypot_fin := fun a b => ⟨|a| + |b|, by positivity, rfl⟩
  hypot_x_zero := fun a => by simp [chypot]

/-- Embedded `models.Sample`.  Only the fields read or written by the
functions under verification are carried; the remaining telemetry fields of
the Go struct are never touched by this code and are omitted. -/
structure Sample where
  Time : F64 := fq 0
  Speed : F64 := fq 0
  SpeedMPS : F64 := fq 0
  AccelX : F64 := fq 0
  AccelY : F64 := fq 0
  AccelZ : F64 := fq 0
  VelX : F64 := fq 0
  VelZ : F64 := fq 0
  SmoothAx : F64 := fq 0
  IsRaceOn : ℤ := 0
  RacePosition : ℤ := 0
  ThrottleRaw : ℤ := 0
  WheelOnRumbleFL : F64 := fq 0
  WheelOnRumbleFR : F64 := fq 0
  WheelOnRumbleRL : F64 := fq 0
  WheelOnRumbleRR : F64 := fq 0
  WheelInPuddleFL : F64 := fq 0
  WheelInPuddleFR : F64 := fq 0
  WheelInPuddleRL : F64 := fq 0
  WheelInPuddleRR : F64 := fq 0
  TireSlipAngleFL : F64 := fq 0
  TireSlipAngleFR : F64 := fq 0
  TireSlipAngleRL : F64 := fq 0
  TireSlipAngleRR : F64 := fq 0
  TireCombinedSlipFL : F64 := fq 0
  TireCombinedSlipFR : F64 := fq 0
  TireCombinedSlipRL : F64 := fq 0
  TireCombinedSlipRR : F64 := fq 0
  deriving DecidableEq, Repr

instance : Inhabited Sample := ⟨{}⟩

/-- Embedded `models.Trackpoint`. -/
structure Trackpoint where
  S : F64 := fq 0
  X : F64 := fq 0
  Y : F64 := fq 0
  Theta : F64 := fq 0
  deriving DecidableEq, Repr

instance : Inhabited Trackpoint := ⟨{}⟩

/-- Embedded `models.Event`.  The Go field `Type` is spelled `Typ` because
`Type` is reserved in Lean; the optional master-mapping fields, which
`DetectEvents` never sets, are omitted. -/
structure Event where
  Index : ℤ := 0
  Time : F64 := fq 0
  Typ : String := ""
  Note : String := ""
  deriving DecidableEq, Repr

instance : Inhabited Event := ⟨{}⟩

instance {e a : Type _} [DecidableEq e] [DecidableEq a] : DecidableEq (Except e a) := fun x y =>
  match x, y with
  | Except.ok u, Except.ok w =>
    if h : u = w then Decidable.isTrue (congrArg Except.ok h)
    else Decidable.isFalse (fun hh => h (Except.ok.inj hh))
  | Except.error u, Except.error w =>
    if h : u = w then Decidable.isTrue (congrArg Except.error h)
    else Decidable.isFalse (fun hh => h (Except.error.inj hh))
  | Except.ok _, Except.error _ => Decidable.isFalse (fun hh => Except.noConfusion hh)
  | Except.error _, Except.ok _ => Decidable.isFalse (fun hh => Except.noConfusion hh)

/-
Path Reconstructor: `track.BuildTrack` (src/track/track.go, lines 218-301)
together with its helpers `clamp` and `cleanFloat`.  The Go function mutates
its input slice (it writes the `SmoothAx` field of every sample), so the
embedding returns both the produced trackpoints and the post-call state of
the input samples.
-/

/-- Embedded `track.cleanFloat`: replace a non-finite value by the fallback. -/
def cleanFloat (v : F64) (fallback : F64) : F64 :=
  match v with
  | F64.nf => fallback
  | F64.v q => F64.v q

/-- Embedded `track.clamp`. -/
def clamp (v lo hi : F64) : F64 :=
  if flt v lo then lo
  else if flt hi v then hi
  else v

/-- The clamped step time of one `BuildTrack` loop iteration
(src/track/track.go lines 249-250): `dt := cleanFloat(cur.Time-prev.Time,
minDT); dt = clamp(dt, minDT, maxDT)` with `minDT = 0.016`, `maxDT = 0.25`. -/
def stepDt (prev cur : Sample) : F64 :=
  clamp (cleanFloat (fsub cur.Time prev.Time) (fq (16/1000))) (fq (16/1000)) (fq (25/100))

/-- The smoothed acceleration of one loop iteration (lines 252-253):
`curAccel := cleanFloat(cur.AccelX, 0); cur.SmoothAx = prev.SmoothAx*0.85 +
curAccel*0.15`. -/
def stepSmooth (prev cur : Sample) : F64 :=
  fadd (fmul prev.SmoothAx (fq (85/100))) (fmul (cleanFloat cur.AccelX (fq 0)) (fq (15/100)))

/-- The cleaned, floored speed of one loop iteration (lines 255-258):
`speed := cleanFloat(cur.Speed, prev.Speed); if speed < minSpeed { speed =
minSpeed }` with `minSpeed = 0.1`. -/
def stepSpeed (prev cur : Sample) : F64 :=
  if flt (cleanFloat cur.Speed prev.Speed) (fq (1/10)) then fq (1/10)
  else cleanFloat cur.Speed prev.Speed

/-- Loop body state of `BuildTrack`: one step of the dead-reckoning loop
(src/track/track.go lines 245-281).  `prev` is the previous sample with its
`SmoothAx` already overwritten, exactly as in the Go loop. -/
def buildGo (m : NumModel) (prev : Sample) (x y dist theta : F64) :
    List Sample → List Trackpoint × List Sample
  | [] => ([], [prev])
  | cur :: rest =>
    let dt := stepDt prev cur
    let smooth := stepSmooth prev cur
    let cur' := { cur with SmoothAx := smooth }
    let speed := stepSpeed prev cur
    let yawRate := if flt (fq 2) speed then fdiv smooth speed else fq 0
    let theta' := fadd theta (fmul yawRate dt)
    let dx := fmul (fmul (m.cos theta') speed) dt
    let dy := fmul (fmul (m.sin theta') speed) dt
    let x' := fadd x dx
    let y' := fadd y dy
    let dist' := fadd dist (m.hypot dx dy)
    let res := buildGo m cur' x' y' dist' theta' rest
    (⟨dist', x', y', theta'⟩ :: res.1, prev :: res.2)

/-- Embedded `track.BuildTrack`.  Returns the reconstructed trackpoints and
the (mutated) sample list, or the error for fewer than 2 samples. -/
def BuildTrack (m : NumModel) (samples : List Sample) :
    Except String (List Trackpoint × List Sample) :=
  match samples with
  | [] => Except.error "not enough samples"
  | [_] => Except.error "not enough samples"
  | s0 :: rest =>
    let theta := cleanFloat (m.atan2 s0.VelZ s0.VelX) (fq 0)
    let s0m := { s0 with SmoothAx := cleanFloat s0.AccelX (fq 0) }
    let res := buildGo m s0m (fq 0) (fq 0) (fq 0) theta rest
    Except.ok (⟨fq 0, fq 0, fq 0, theta⟩ :: res.1, res.2)

theorem buildGo_track_length (m : NumModel) :
    ∀ (rest : List Sample) (prev : Sample) (x y dist theta : F64),
      (buildGo m prev x y dist theta rest).1.length = rest.length := by
  intro rest
  induction rest with
  | nil => intro prev x y dist theta; rfl
  | cons cur rest ih =>
    intro prev x y dist theta
    simp only [buildGo, List.length_cons]
    rw [ih]

theorem buildGo_samples_length (m : NumModel) :
    ∀ (rest : List Sample) (prev : Sample) (x y dist theta : F64),
      (buildGo m prev x y dist theta rest).2.length = rest.length + 1 := by
  intro rest
  induction rest with
  | nil => intro prev x y dist theta; rfl
  | cons cur rest ih =>
    intro prev x y dist theta
    simp only [buildGo, List.length_cons]
    rw [ih]


theorem cleanFloat_fin (x : F64) (q : ℚ) :
    ∃ r : ℚ, cleanFloat x (fq q) = F64.v r := by
  cases x with
  | v a => exact ⟨a, rfl⟩
  | nf => exact ⟨q, rfl⟩

theorem clamp_fin (q a b : ℚ) :
    ∃ r : ℚ, clamp (F64.v q) (fq a) (fq b) = F64.v r := by
  unfold clamp
  split
  · exact ⟨a, rfl⟩
  · split
    · exact ⟨b, rfl⟩
    · exact ⟨q, rfl⟩

theorem fle_v_v (a b : ℚ) : fle (F64.v a) (F64.v b) = decide (a ≤ b) := rfl

/-- Relation between consecutive samples ruling out the one situation in
which `BuildTrack` propagates a non-finite speed: both the current and the
previous raw `Speed` fields non-finite. -/
def speedOK (a b : Sample) : Prop := a.Speed ≠ F64.nf ∨ b.Speed ≠ F64.nf

/-- The step helpers stay finite: the step time is always finite. -/
theorem stepDt_fin (prev cur : Sample) : ∃ r : ℚ, stepDt prev cur = F64.v r := by
  unfold stepDt
  obtain ⟨r, hr⟩ := cleanFloat_fin (fsub cur.Time prev.Time) (16/1000)
  rw [hr]
  exact clamp_fin r (16/1000) (25/100)

/-- The smoothed acceleration is finite whenever the previous sample's
`SmoothAx` is. -/
theorem stepSmooth_fin (prev cur : Sample) (sm : ℚ) (hsm : prev.SmoothAx = F64.v sm) :
    ∃ r : ℚ, stepSmooth prev cur = F64.v r := by
  unfold stepSmooth
  obtain ⟨a, ha⟩ := cleanFloat_fin cur.AccelX 0
  rw [hsm, ha]
  exact ⟨sm * (85/100) + a * (15/100), rfl⟩

/-- The cleaned, floored speed is finite unless both the current and the
previous raw speeds are non-finite. -/
theorem stepSpeed_fin (prev cur : Sample)
    (hok : cur.Speed ≠ F64.nf ∨ prev.Speed ≠ F64.nf) :
    ∃ r : ℚ, stepSpeed prev cur = F64.v r := by
  unfold stepSpeed
  have h0 : ∃ sp0 : ℚ, cleanFloat cur.Speed prev.Speed = F64.v sp0 := by
    cases hc : cur.Speed with
    | v a => exact ⟨a, by simp [cleanFloat]⟩
    | nf =>
      rcases hok with h | h
      · exact absurd hc h
      · cases hp : prev.Speed with
        | v b => exact ⟨b, by simp [cleanFloat, hc, hp]⟩
        | nf => exact absurd hp h
  obtain ⟨sp0, hsp0⟩ := h0
  rw [hsp0]
  split
  · exact ⟨1/10, rfl⟩
  · exact ⟨sp0, rfl⟩

/-- Arc length is accumulated through non-negative finite hypot increments:
the `S` values of the trackpoints `buildGo` produces form a non-decreasing
chain of finite values, starting from the incoming accumulator. -/
theorem buildGo_S_chain (m : NumModel) :
    ∀ (rest : List Sample) (prev : Sample) (x y : F64) (d θq sm : ℚ),
      prev.SmoothAx = F64.v sm →
      List.Chain' speedOK (prev :: rest) →
      List.Chain' (fun a b : F64 => fle a b = true)
        (F64.v d :: ((buildGo m prev x y (F64.v d) (F64.v θq) rest).1.map Trackpoint.S)) := by
  intro rest
  induction rest with
  | nil =>
    intro prev x y d θq sm hsm hch
    simp [buildGo]
  | cons cur rest ih =>
    intro prev x y d θq sm hsm hch
    obtain ⟨sp, hsp⟩ := stepSpeed_fin prev cur (Or.symm (List.chain'_cons.mp hch).1)
    obtain ⟨dtq, hdt⟩ := stepDt_fin prev cur
    obtain ⟨smq, hsmooth⟩ := stepSmooth_fin prev cur sm hsm
    simp only [buildGo, List.map_cons]
    rw [hsp, hdt, hsmooth]
    have hyaw : ∃ yq : ℚ,
        (if flt (fq 2) (F64.v sp) = true then fdiv (F64.v smq) (F64.v sp) else fq 0)
          = F64.v yq := by
      by_cases h2 : flt (fq 2) (F64.v sp) = true
      · have hne : sp ≠ 0 := by
          simp only [fq, flt, decide_eq_true_eq] at h2
          intro h0; rw [h0] at h2; norm_num at h2
        exact ⟨smq / sp, by rw [if_pos h2]; simp [fdiv, hne]⟩
      · exact ⟨0, by rw [if_neg h2]; rfl⟩
    obtain ⟨yq, hyq⟩ := hyaw
    rw [hyq]
    rw [show fadd (F64.v θq) (fmul (F64.v yq) (F64.v dtq)) = F64.v (θq + yq * dtq) from rfl]
    obtain ⟨cq, hcq⟩ := m.cos_fin (θq + yq * dtq)
    obtain ⟨sq, hsq⟩ := m.sin_fin (θq + yq * dtq)
    rw [hcq, hsq]
    rw [show fmul (fmul (F64.v cq) (F64.v sp)) (F64.v dtq) = F64.v (cq * sp * dtq) from rfl]
    rw [show fmul (fmul (F64.v sq) (F64.v sp)) (F64.v dtq) = F64.v (sq * sp * dtq) from rfl]
    obtain ⟨c, hc0, hcv⟩ := m.hypot_fin (cq * sp * dtq) (sq * sp * dtq)
    rw [hcv]
    rw [show fadd (F64.v d) (F64.v c) = F64.v (d + c) from rfl]
    rw [List.chain'_cons]
    constructor
    · rw [fle_v_v]
      simp only [decide_eq_true_eq]
      linarith
    · have hch2 : List.Chain' speedOK
          ({ cur with SmoothAx := F64.v smq } :: rest) := by
        have htail : List.Chain' speedOK (cur :: rest) := (List.chain'_cons.mp hch).2
        cases rest with
        | nil => simp
        | cons r rs =>
          rw [List.chain'_cons] at htail ⊢
          exact ⟨htail.1, htail.2⟩
      exact ih { cur with SmoothAx := F64.v smq }
        (fadd x (F64.v (cq * sp * dtq))) (fadd y (F64.v (sq * sp * dtq)))
        (d + c) (θq + yq * dtq) smq rfl hch2

/-- Claim C1 (amended): `BuildTrack` errors out on fewer than 2 samples and
otherwise returns exactly one trackpoint per input sample with arc length 0
at the first point; the arc length is non-decreasing along the output
provided no two consecutive samples both carry a non-finite raw speed (in
that one case the code falls back to the previous sample's raw — still
non-finite — speed and the arc length accumulator turns non-finite). -/
theorem C1_theorem (m : NumModel) (samples : List Sample) :
    (samples.length < 2 → BuildTrack m samples = Except.error "not enough samples") ∧
    (2 ≤ samples.length → ∃ track samples2,
      BuildTrack m samples = Except.ok (track, samples2) ∧
      track.length = samples.length ∧
      (track.headD default).S = fq 0 ∧
      (List.Chain' speedOK samples →
        List.Chain' (fun p q : Trackpoint => fle p.S q.S = true) track)) := by
  match samples with
  | [] => exact ⟨fun _ => rfl, by intro h; simp at h⟩
  | [s] => exact ⟨fun _ => rfl, by intro h; simp at h⟩
  | s0 :: s1 :: rest =>
    constructor
    · intro h; simp at h; omega
    · intro _
      refine ⟨_, _, rfl, ?_, ?_, ?_⟩
      · simp only [List.length_cons, buildGo_track_length]
      · rfl
      · intro hch
        obtain ⟨smv, hsmv⟩ := cleanFloat_fin s0.AccelX 0
        obtain ⟨θv, hθv⟩ := cleanFloat_fin (m.atan2 s0.VelZ s0.VelX) 0
        have hch2 : List.Chain' speedOK
            ({ s0 with SmoothAx := cleanFloat s0.AccelX (fq 0) } :: s1 :: rest) := by
          rw [List.chain'_cons] at hch ⊢
          exact ⟨hch.1, hch.2⟩
        have hc := buildGo_S_chain m (s1 :: rest)
          { s0 with SmoothAx := cleanFloat s0.AccelX (fq 0) }
          (fq 0) (fq 0) 0 θv smv (by simpa using hsmv) hch2
        rw [hθv]
        exact (@List.chain'_map F64 Trackpoint (fun a b => fle a b = true)
          Trackpoint.S _).mp (by simp only [List.map_cons]; exact hc)

/-- First sample of the C1 counterexample: non-finite raw speed. -/
def c1badA : Sample := { Time := fq 0, Speed := F64.nf }

/-- Second sample of the C1 counterexample: non-finite raw speed. -/
def c1badB : Sample := { Time := fq (1/10), Speed := F64.nf }

/-- Claim C1 as stated is false: on two samples whose raw speeds are both
non-finite, `BuildTrack` succeeds but produces an arc-length sequence
`[0, NaN]`, which is not non-decreasing (the comparison `0 <= NaN` is
false). -/
theorem C1_counterexample :
    ((BuildTrack cmodel [c1badA, c1badB]).toOption.map
      (fun r => r.1.map Trackpoint.S)) = some [fq 0, F64.nf] ∧
    fle (fq 0) F64.nf = false := by
  constructor
  · rfl
  · rfl

/-- First sample of the C1 witness. -/
def c1wA : Sample := { Time := fq 0, Speed := fq 5 }

/-- Second sample of the C1 witness. -/
def c1wB : Sample := { Time := fq (1/10), Speed := fq 5 }

theorem C1_witness :
    2 ≤ ([c1wA, c1wB] : List Sample).length ∧
    ∃ track samples2,
      BuildTrack cmodel [c1wA, c1wB] = Except.ok (track, samples2) ∧
      track.length = ([c1wA, c1wB] : List Sample).length ∧
      (track.headD default).S = fq 0 ∧
      (List.Chain' speedOK [c1wA, c1wB] →
        List.Chain' (fun p q : Trackpoint => fle p.S q.S = true) track) := by
  refine ⟨by decide, ?_⟩
  exact (C1_theorem cmodel [c1wA, c1wB]).2 (by decide)

/-- Projection of a sample forgetting the one field `BuildTrack` writes. -/
def exceptSmooth (s : Sample) : Sample := { s with SmoothAx := fq 0 }

theorem buildGo_samples_exceptSmooth (m : NumModel) :
    ∀ (rest : List Sample) (prev : Sample) (x y dist theta : F64),
      (buildGo m prev x y dist theta rest).2.map exceptSmooth
        = (prev :: rest).map exceptSmooth := by
  intro rest
  induction rest with
  | nil => intro prev x y dist theta; rfl
  | cons cur rest ih =>
    intro prev x y dist theta
    simp only [buildGo, List.map_cons]
    rw [ih]
    rfl

/-- Claim C7 (amended): `BuildTrack` leaves every field of every input
sample unchanged except `SmoothAx`, which it overwrites with the smoothed
longitudinal acceleration (the Go code takes a pointer into the input slice
precisely to write that field). -/
theorem C7_theorem (m : NumModel) (samples : List Sample) :
    ∀ track samples2, BuildTrack m samples = Except.ok (track, samples2) →
      samples2.map exceptSmooth = samples.map exceptSmooth := by
  match samples with
  | [] => intro track samples2 h; simp [BuildTrack] at h
  | [s] => intro track samples2 h; simp [BuildTrack] at h
  | s0 :: s1 :: rest =>
    intro track samples2 h
    have h2 := (Except.ok.inj h)
    have hs : samples2 = (buildGo m { s0 with SmoothAx := cleanFloat s0.AccelX (fq 0) }
        (fq 0) (fq 0) (fq 0) (cleanFloat (m.atan2 s0.VelZ s0.VelX) (fq 0)) (s1 :: rest)).2 :=
      (congrArg Prod.snd h2).symm
    rw [hs, buildGo_samples_exceptSmooth]
    rfl

/-- First sample of the C7 counterexample: `SmoothAx` loaded as 5. -/
def c7s0 : Sample := { Time := fq 0, AccelX := fq 1, SmoothAx := fq 5 }

/-- Second sample of the C7 counterexample. -/
def c7s1 : Sample := { Time := fq (1/10) }

/-- Claim C7 as stated is false: `BuildTrack` overwrites the `SmoothAx`
field of the input samples — here the first sample's `SmoothAx` changes
from 5 to its cleaned acceleration 1. -/
theorem C7_counterexample :
    ((BuildTrack cmodel [c7s0, c7s1]).toOption.map
      (fun r => (r.2.headD default).SmoothAx)) = some (fq 1) ∧
    c7s0.SmoothAx = fq 5 ∧ (fq 1 : F64) ≠ fq 5 := by
  refine ⟨rfl, rfl, by decide⟩

theorem C7_witness :
    ([{ c7s0 with SmoothAx := fq 1 },
      { c7s1 with SmoothAx := fq (85/100) }] : List Sample).map exceptSmooth
      = ([c7s0, c7s1] : List Sample).map exceptSmooth := by
  have e : BuildTrack cmodel [c7s0, c7s1] =
      Except.ok ([⟨fq 0, fq 0, fq 0, fq 0⟩,
        ⟨fq (1/100), fq (1/100), fq 0, fq 0⟩],
        [{ c7s0 with SmoothAx := fq 1 }, { c7s1 with SmoothAx := fq (85/100) }]) := by
    decide
  exact C7_theorem cmodel [c7s0, c7s1] _ _ e

/-
Claim C6 concerns the per-step arithmetic of the dead-reckoning loop.  The
following `spec…` definitions are written from the specification's wording
(not from the code); the claim theorem proves that the loop's outputs obey
them.
-/

/-- Spec wording: "the step time dt is clamped to [0.016, 0.25] with
non-finite dt replaced by the 0.016 floor". -/
def specDt (cur prev : Sample) : F64 :=
  match fsub cur.Time prev.Time with
  | F64.nf => fq (16/1000)
  | F64.v q => F64.v (max (16/1000) (min q (25/100)))

/-- Spec wording: "non-finite speed is replaced by the previous sample's
speed and floored at 0.1" (the floor is a float comparison, so a still
non-finite fallback passes through). -/
def specSpeed (cur prev : Sample) : F64 :=
  match (match cur.Speed with | F64.nf => prev.Speed | F64.v q => F64.v q) with
  | F64.nf => F64.nf
  | F64.v q => F64.v (max (1/10) q)

/-- Spec wording: "the smoothed longitudinal acceleration equals 0.85 times
the previous smoothed value plus 0.15 times the current (non-finite replaced
by 0)". -/
def specSmoothAx (prevSmooth ax : F64) : F64 :=
  fadd (fmul (fq (85/100)) prevSmooth)
    (fmul (fq (15/100)) (match ax with | F64.nf => fq 0 | F64.v q => F64.v q))

/-- Spec wording: "the yaw rate equals smoothed acceleration divided by
speed only when speed exceeds 2.0 (otherwise 0)". -/
def specYawRate (smooth speed : F64) : F64 :=
  if flt (fq 2) speed then fdiv smooth speed else fq 0

theorem flt_iff (a b : ℚ) : flt (F64.v a) (F64.v b) = true ↔ a < b := by
  simp [flt]

theorem fle_iff (a b : ℚ) : fle (F64.v a) (F64.v b) = true ↔ a ≤ b := by
  simp [fle]

theorem code_dt_eq_spec (cur prev : Sample) :
    stepDt prev cur = specDt cur prev := by
  unfold stepDt specDt cleanFloat clamp fq
  cases fsub cur.Time prev.Time with
  | nf =>
    rw [if_neg (by rw [flt_iff]; norm_num), if_neg (by rw [flt_iff]; norm_num)]
  | v q =>
    simp only []
    by_cases h1 : q < 16/1000
    · rw [if_pos ((flt_iff q (16/1000)).mpr h1)]
      congr 1
      rw [min_eq_left (by linarith : q ≤ 25/100), max_eq_left (by linarith)]
    · by_cases h2 : (25/100 : ℚ) < q
      · rw [if_neg (by rw [flt_iff]; linarith), if_pos ((flt_iff (25/100) q).mpr h2)]
        congr 1
        rw [min_eq_right (by linarith : (25/100:ℚ) ≤ q), max_eq_right (by norm_num)]
      · rw [if_neg (by rw [flt_iff]; linarith), if_neg (by rw [flt_iff]; linarith)]
        congr 1
        rw [min_eq_left (by linarith), max_eq_right (by linarith)]

theorem code_speed_eq_spec (cur prev : Sample) :
    stepSpeed prev cur = specSpeed cur prev := by
  unfold stepSpeed specSpeed cleanFloat fq
  cases cur.Speed with
  | v q =>
    simp only []
    by_cases h : q < 1/10
    · rw [if_pos ((flt_iff q (1/10)).mpr h)]
      rw [max_eq_left (by linarith)]
    · rw [if_neg (by rw [flt_iff]; linarith)]
      rw [max_eq_right (by linarith)]
  | nf =>
    cases prev.Speed with
    | v q =>
      simp only []
      by_cases h : q < 1/10
      · rw [if_pos ((flt_iff q (1/10)).mpr h)]
        rw [max_eq_left (by linarith)]
      · rw [if_neg (by rw [flt_iff]; linarith)]
        rw [max_eq_right (by linarith)]
    | nf =>
      simp [flt]

theorem code_smooth_eq_spec (prev cur : Sample) :
    stepSmooth prev cur = specSmoothAx prev.SmoothAx cur.AccelX := by
  unfold stepSmooth specSmoothAx cleanFloat
  have h1 : fmul prev.SmoothAx (fq (85/100)) = fmul (fq (85/100)) prev.SmoothAx := by
    cases prev.SmoothAx <;> simp [fmul, fq, Rat.mul_comm]
  rw [h1]
  congr 1
  cases cur.AccelX with
  | nf => simp [fmul, fq, Rat.mul_comm]
  | v q => simp [fmul, fq, Rat.mul_comm]

theorem specDt_bounds (cur prev : Sample) :
    fle (fq (16/1000)) (specDt cur prev) = true ∧
    fle (specDt cur prev) (fq (25/100)) = true ∧
    (fsub cur.Time prev.Time = F64.nf → specDt cur prev = fq (16/1000)) := by
  unfold specDt
  cases fsub cur.Time prev.Time with
  | nf =>
    exact ⟨by decide, by decide, fun _ => rfl⟩
  | v q =>
    refine ⟨?_, ?_, by intro h; cases h⟩
    · show fle (F64.v (16/1000)) _ = true
      rw [fle_iff]
      exact le_max_left _ _
    · show fle _ (F64.v (25/100)) = true
      rw [fle_iff, max_le_iff]
      exact ⟨by norm_num, min_le_right q (25/100)⟩

theorem buildGo_samples_head (m : NumModel) (p : Sample) (x y d t : F64)
    (l : List Sample) : (buildGo m p x y d t l).2.getD 0 default = p := by
  cases l <;> rfl

/-- One step of the dead-reckoning loop, expressed against the spec-side
definitions: at every index `k` of the loop the written-back `SmoothAx`, the
heading update, and the position advance are exactly the quantities the
specification describes.  The trackpoint list is viewed with the incoming
accumulator state `⟨dist, x, y, theta⟩` prepended (as `BuildTrack` does),
and the sample list is the mutated one `buildGo` returns. -/
theorem buildGo_step (m : NumModel) :
    ∀ (rest : List Sample) (prev : Sample) (x y dist theta : F64) (k : ℕ),
      k < rest.length →
      (((buildGo m prev x y dist theta rest).2.getD (k+1) default).SmoothAx
        = specSmoothAx (((buildGo m prev x y dist theta rest).2.getD k default).SmoothAx)
            ((rest.getD k default).AccelX))
      ∧ (((⟨dist, x, y, theta⟩ : Trackpoint) :: (buildGo m prev x y dist theta rest).1).getD (k+1) default).Theta
        = fadd ((((⟨dist, x, y, theta⟩ : Trackpoint) :: (buildGo m prev x y dist theta rest).1).getD k default).Theta)
            (fmul (specYawRate (((buildGo m prev x y dist theta rest).2.getD (k+1) default).SmoothAx)
                    (specSpeed (rest.getD k default)
                      ((buildGo m prev x y dist theta rest).2.getD k default)))
                  (specDt (rest.getD k default)
                    ((buildGo m prev x y dist theta rest).2.getD k default)))
      ∧ (((⟨dist, x, y, theta⟩ : Trackpoint) :: (buildGo m prev x y dist theta rest).1).getD (k+1) default).X
        = fadd ((((⟨dist, x, y, theta⟩ : Trackpoint) :: (buildGo m prev x y dist theta rest).1).getD k default).X)
            (fmul (fmul (m.cos ((((⟨dist, x, y, theta⟩ : Trackpoint) :: (buildGo m prev x y dist theta rest).1).getD (k+1) default).Theta))
                    (specSpeed (rest.getD k default)
                      ((buildGo m prev x y dist theta rest).2.getD k default)))
                  (specDt (rest.getD k default)
                    ((buildGo m prev x y dist theta rest).2.getD k default)))
      ∧ (((⟨dist, x, y, theta⟩ : Trackpoint) :: (buildGo m prev x y dist theta rest).1).getD (k+1) default).Y
        = fadd ((((⟨dist, x, y, theta⟩ : Trackpoint) :: (buildGo m prev x y dist theta rest).1).getD k default).Y)
            (fmul (fmul (m.sin ((((⟨dist, x, y, theta⟩ : Trackpoint) :: (buildGo m prev x y dist theta rest).1).getD (k+1) default).Theta))
                    (specSpeed (rest.getD k default)
                      ((buildGo m prev x y dist theta rest).2.getD k default)))
                  (specDt (rest.getD k default)
                    ((buildGo m prev x y dist theta rest).2.getD k default))) := by
  intro rest
  induction rest with
  | nil =>
    intro prev x y dist theta k hk
    simp at hk
  | cons cur rest ih =>
    intro prev x y dist theta k hk
    cases k with
    | zero =>
      simp only [buildGo, List.getD_cons_zero, List.getD_cons_succ]
      rw [buildGo_samples_head]
      refine ⟨?_, ?_, ?_, ?_⟩
      · exact code_smooth_eq_spec prev cur
      · rw [← code_speed_eq_spec cur prev, ← code_dt_eq_spec cur prev]
        try rfl
      · rw [← code_speed_eq_spec cur prev, ← code_dt_eq_spec cur prev]
        try rfl
      · rw [← code_speed_eq_spec cur prev, ← code_dt_eq_spec cur prev]
        try rfl
    | succ k =>
      have hk2 : k < rest.length := by simpa using hk
      simp only [buildGo, List.getD_cons_succ]
      exact ih _ _ _ _ _ k hk2

/-- Claim C6: for every dead-reckoning step `i ≥ 1` of `BuildTrack` the
written-back smoothed acceleration, the clamped step time, the yaw rate,
the speed fallback and the position advance are exactly the quantities the
specification describes (`specSmoothAx`, `specDt`, `specSpeed`,
`specYawRate` are written from the spec's wording).  The "previous sample"
is read from the returned (mutated) sample list, whose `Time` and `Speed`
fields are identical to the input's. -/
theorem C6_theorem (m : NumModel) (samples : List Sample) (track : List Trackpoint)
    (samples2 : List Sample) (i : ℕ)
    (hok : BuildTrack m samples = Except.ok (track, samples2))
    (h1 : 1 ≤ i) (h2 : i < samples.length) :
    ((samples2.getD i default).SmoothAx
      = specSmoothAx ((samples2.getD (i-1) default).SmoothAx)
          ((samples.getD i default).AccelX))
    ∧ fle (fq (16/1000)) (specDt (samples.getD i default) (samples2.getD (i-1) default)) = true
    ∧ fle (specDt (samples.getD i default) (samples2.getD (i-1) default)) (fq (25/100)) = true
    ∧ (fsub (samples.getD i default).Time (samples2.getD (i-1) default).Time = F64.nf →
        specDt (samples.getD i default) (samples2.getD (i-1) default) = fq (16/1000))
    ∧ ((track.getD i default).Theta
      = fadd ((track.getD (i-1) default).Theta)
          (fmul (specYawRate ((samples2.getD i default).SmoothAx)
                  (specSpeed (samples.getD i default) (samples2.getD (i-1) default)))
                (specDt (samples.getD i default) (samples2.getD (i-1) default))))
    ∧ ((track.getD i default).X
      = fadd ((track.getD (i-1) default).X)
          (fmul (fmul (m.cos ((track.getD i default).Theta))
                  (specSpeed (samples.getD i default) (samples2.getD (i-1) default)))
                (specDt (samples.getD i default) (samples2.getD (i-1) default))))
    ∧ ((track.getD i default).Y
      = fadd ((track.getD (i-1) default).Y)
          (fmul (fmul (m.sin ((track.getD i default).Theta))
                  (specSpeed (samples.getD i default) (samples2.getD (i-1) default)))
                (specDt (samples.getD i default) (samples2.getD (i-1) default)))) := by
  match samples with
  | [] => simp [BuildTrack] at hok
  | [s] => simp [BuildTrack] at hok
  | s0 :: s1 :: rest =>
    obtain ⟨k, rfl⟩ : ∃ k, i = k + 1 := ⟨i - 1, by omega⟩
    have hpair := Except.ok.inj hok
    have htr : track = (⟨fq 0, fq 0, fq 0, cleanFloat (m.atan2 s0.VelZ s0.VelX) (fq 0)⟩ : Trackpoint)
        :: (buildGo m { s0 with SmoothAx := cleanFloat s0.AccelX (fq 0) }
            (fq 0) (fq 0) (fq 0) (cleanFloat (m.atan2 s0.VelZ s0.VelX) (fq 0)) (s1 :: rest)).1 :=
      (congrArg Prod.fst hpair).symm
    have hsm2 : samples2 = (buildGo m { s0 with SmoothAx := cleanFloat s0.AccelX (fq 0) }
        (fq 0) (fq 0) (fq 0) (cleanFloat (m.atan2 s0.VelZ s0.VelX) (fq 0)) (s1 :: rest)).2 :=
      (congrArg Prod.snd hpair).symm
    subst htr
    subst hsm2
    have hk : k < (s1 :: rest).length := by
      simp only [List.length_cons] at h2 ⊢
      omega
    have H := buildGo_step m (s1 :: rest)
      { s0 with SmoothAx := cleanFloat s0.AccelX (fq 0) }
      (fq 0) (fq 0) (fq 0) (cleanFloat (m.atan2 s0.VelZ s0.VelX) (fq 0)) k hk
    simp only [List.getD_cons_succ, Nat.add_sub_cancel]
    exact ⟨H.1, (specDt_bounds _ _).1, (specDt_bounds _ _).2.1, (specDt_bounds _ _).2.2,
      H.2.1, H.2.2.1, H.2.2.2⟩

/-- First sample of the C6 witness. -/
def c6wA : Sample := { Time := fq 0, Speed := fq 5, AccelX := fq 1 }

/-- Second sample of the C6 witness. -/
def c6wB : Sample := { Time := fq (1/10), Speed := fq 4 }

/-- Concrete track produced by `BuildTrack cmodel [c6wA, c6wB]`. -/
def c6TR : List Trackpoint :=
  [⟨fq 0, fq 0, fq 0, fq 0⟩, ⟨fq (2/5), fq (2/5), fq 0, fq (17/800)⟩]

/-- Concrete mutated samples produced by `BuildTrack cmodel [c6wA, c6wB]`. -/
def c6SM : List Sample :=
  [{ c6wA with SmoothAx := fq 1 }, { c6wB with SmoothAx := fq (85/100) }]

theorem C6_witness :
    ((c6SM.getD 1 default).SmoothAx
      = specSmoothAx ((c6SM.getD 0 default).SmoothAx)
          ((([c6wA, c6wB] : List Sample).getD 1 default).AccelX))
    ∧ ((c6TR.getD 1 default).Theta
      = fadd ((c6TR.getD 0 default).Theta)
          (fmul (specYawRate ((c6SM.getD 1 default).SmoothAx)
                  (specSpeed (([c6wA, c6wB] : List Sample).getD 1 default) (c6SM.getD 0 default)))
                (specDt (([c6wA, c6wB] : List Sample).getD 1 default) (c6SM.getD 0 default)))) := by
  have h := C6_theorem cmodel [c6wA, c6wB] c6TR c6SM 1 (by decide) (by decide) (by decide)
  exact ⟨h.1, h.2.2.2.2.1⟩

/-
Lap Segmenter: `track.DetectLapsNearStart` (src/track/track.go lines
306-333), `track.FindLapIndicesByDistanceWithMin` (lines 342-363) and
`track.BuildEvenLapIdx` (lap-index file, lines 11-32).  Both detection
loops share the Go shape `for i := 1; i < len(points); i++` appending the
index when a condition on the current point and the arc length at the last
boundary holds; `scanIdxAux` captures that shape, parameterized by the
condition.
-/

/-- Shared index-scanning loop of the two detection strategies: walk the
points from index `i`, appending the index and re-basing `lastS` whenever
the condition on the current point and `lastS` holds. -/
def scanIdxAux (cond : Trackpoint → F64 → Bool) :
    List Trackpoint → ℕ → F64 → List ℕ
  | [], _, _ => []
  | p :: rest, i, lastS =>
    if cond p lastS then i :: scanIdxAux cond rest (i+1) p.S
    else scanIdxAux cond rest (i+1) lastS

/-- Embedded `track.DetectLapsNearStart`. -/
def DetectLapsNearStart (points : List Trackpoint) (radius minLapDistance : F64) :
    List ℕ :=
  match points with
  | [] => []
  | p0 :: tl =>
    let indices := 0 :: scanIdxAux
      (fun p lastS =>
        fle (fadd (fmul (fsub p.X p0.X) (fsub p.X p0.X))
              (fmul (fsub p.Y p0.Y) (fsub p.Y p0.Y))) (fmul radius radius)
        && fle minLapDistance (fsub p.S lastS)) tl 1 p0.S
    if indices.getLastD 0 = (p0 :: tl).length then indices
    else indices ++ [(p0 :: tl).length]

/-- Embedded `track.FindLapIndicesByDistanceWithMin`. -/
def FindLapIndicesByDistanceWithMin (points : List Trackpoint)
    (expectedLap tolerance minLapDistance : F64) : List ℕ :=
  match points with
  | [] => []
  | [_] => []
  | p0 :: tl =>
    let result := 0 :: scanIdxAux
      (fun p lastS =>
        fle (fsub expectedLap tolerance) (fsub p.S lastS)
        && fle minLapDistance (fsub p.S lastS)) tl 1 p0.S
    if result.getLastD 0 = (p0 :: tl).length then result
    else result ++ [(p0 :: tl).length]

/-- Embedded `track.FindLapIndicesByDistance`. -/
def FindLapIndicesByDistance (points : List Trackpoint)
    (expectedLap tolerance : F64) : List ℕ :=
  FindLapIndicesByDistanceWithMin points expectedLap tolerance
    (fmul expectedLap (fq (1/2)))

/-- Loop of `track.BuildEvenLapIdx`: Go iterates over all points from index
0, appending the index and advancing the target whenever the point's arc
length reaches the target and fewer than `laps` indices were taken. -/
def evenAux (lapLen : F64) (laps : ℤ) :
    List Trackpoint → ℕ → F64 → ℤ → List ℕ
  | [], _, _, _ => []
  | p :: rest, i, target, cnt =>
    if fle target p.S && decide (cnt < laps)
    then i :: evenAux lapLen laps rest (i+1) (fadd target lapLen) (cnt+1)
    else evenAux lapLen laps rest (i+1) target cnt

/-- Embedded `track.BuildEvenLapIdx`. -/
def BuildEvenLapIdx (points : List Trackpoint) (laps : ℤ) : List ℕ :=
  if laps < 1 ∨ points.length = 0 then [0, points.length]
  else
    let totalDist := (points.getLastD default).S
    if fle totalDist (fq 0) then [0, points.length]
    else
      let lapLen := fdiv totalDist (fq (laps : ℚ))
      let out := 0 :: evenAux lapLen laps points 0 lapLen 1
      if out.getLastD 0 = points.length then out
      else out ++ [points.length]

/-- Invariant of a lap boundary index set (spec, data model section): at
least 2 entries, strictly increasing, last entry equal to the point count. -/
def lapIdxOK (idx : List ℕ) (n : ℕ) : Prop :=
  2 ≤ idx.length ∧ List.Chain' (fun a b : ℕ => a < b) idx ∧ idx.getLast? = some n

theorem scanIdxAux_mem (cond : Trackpoint → F64 → Bool) :
    ∀ (l : List Trackpoint) (i : ℕ) (lastS : F64) (j : ℕ),
      j ∈ scanIdxAux cond l i lastS → i ≤ j ∧ j < i + l.length := by
  intro l
  induction l with
  | nil => intro i lastS j hj; simp [scanIdxAux] at hj
  | cons p rest ih =>
    intro i lastS j hj
    simp only [scanIdxAux] at hj
    split at hj
    · rcases List.mem_cons.mp hj with h | h
      · subst h; simp
      · have := ih (i+1) p.S j h
        simp only [List.length_cons]
        omega
    · have := ih (i+1) lastS j hj
      simp only [List.length_cons]
      omega

theorem scanIdxAux_chain (cond : Trackpoint → F64 → Bool) :
    ∀ (l : List Trackpoint) (i : ℕ) (lastS : F64) (lo : ℕ), lo < i →
      List.Chain' (fun a b : ℕ => a < b) (lo :: scanIdxAux cond l i lastS) := by
  intro l
  induction l with
  | nil => intro i lastS lo _; simp [scanIdxAux]
  | cons p rest ih =>
    intro i lastS lo hlo
    simp only [scanIdxAux]
    split
    · rw [List.chain'_cons]
      exact ⟨hlo, ih (i+1) p.S i (Nat.lt_succ_self i)⟩
    · exact ih (i+1) lastS lo (Nat.lt_trans hlo (Nat.lt_succ_self i))

theorem evenAux_mem (lapLen : F64) (laps : ℤ) :
    ∀ (l : List Trackpoint) (i : ℕ) (target : F64) (cnt : ℤ) (j : ℕ),
      j ∈ evenAux lapLen laps l i target cnt → i ≤ j ∧ j < i + l.length := by
  intro l
  induction l with
  | nil => intro i target cnt j hj; simp [evenAux] at hj
  | cons p rest ih =>
    intro i target cnt j hj
    simp only [evenAux] at hj
    split at hj
    · rcases List.mem_cons.mp hj with h | h
      · subst h; simp
      · have := ih (i+1) (fadd target lapLen) (cnt+1) j h
        simp only [List.length_cons]
        omega
    · have := ih (i+1) target cnt j hj
      simp only [List.length_cons]
      omega

theorem evenAux_chain (lapLen : F64) (laps : ℤ) :
    ∀ (l : List Trackpoint) (i : ℕ) (target : F64) (cnt : ℤ) (lo : ℕ), lo < i →
      List.Chain' (fun a b : ℕ => a < b) (lo :: evenAux lapLen laps l i target cnt) := by
  intro l
  induction l with
  | nil => intro i target cnt lo _; simp [evenAux]
  | cons p rest ih =>
    intro i target cnt lo hlo
    simp only [evenAux]
    split
    · rw [List.chain'_cons]
      exact ⟨hlo, ih (i+1) (fadd target lapLen) (cnt+1) i (Nat.lt_succ_self i)⟩
    · exact ih (i+1) target cnt lo (Nat.lt_trans hlo (Nat.lt_succ_self i))

/-- Assembling the invariant: a strictly increasing `0 :: aux` whose tail
elements are below `n ≥ 1`, with the end boundary appended when missing,
satisfies `lapIdxOK`. -/
theorem lapIdxOK_assemble (aux : List ℕ) (n : ℕ) (hn : 1 ≤ n)
    (hch : List.Chain' (fun a b : ℕ => a < b) (0 :: aux))
    (hlt : ∀ j ∈ aux, j < n) :
    lapIdxOK (if (0 :: aux).getLastD 0 = n then 0 :: aux else (0 :: aux) ++ [n]) n := by
  have hsome := List.getLast?_eq_getLast (0 :: aux) (by simp)
  have hD : (0 :: aux).getLastD 0 = (0 :: aux).getLast (by simp) := by
    rw [List.getLastD_eq_getLast?, hsome]
    rfl
  split
  · next heq =>
    have hne2 : aux ≠ [] := by
      intro h0
      subst h0
      simp [List.getLastD] at heq
      omega
    refine ⟨?_, hch, ?_⟩
    · cases aux with
      | nil => exact absurd rfl hne2
      | cons a tl => simp
    · rw [hsome, ← hD, heq]
  · refine ⟨?_, ?_, ?_⟩
    · simp
    · rw [List.chain'_append]
      refine ⟨hch, List.chain'_singleton n, ?_⟩
      intro x hx y hy
      simp only [List.head?_cons, Option.mem_def, Option.some.injEq] at hy
      subst hy
      rw [hsome, Option.mem_def, Option.some.injEq] at hx
      subst hx
      have hmem : (0 :: aux).getLast (by simp) ∈ 0 :: aux := List.getLast_mem _
      rcases List.mem_cons.mp hmem with h0 | hmem2
      · rw [h0]; omega
      · exact hlt _ hmem2
    · exact List.getLast?_concat _

theorem lapIdxOK_pair (n : ℕ) (hn : 1 ≤ n) : lapIdxOK [0, n] n := by
  refine ⟨by simp, ?_, by simp⟩
  simp only [List.chain'_cons, List.chain'_singleton, and_true]
  omega

/-- Claim C2 (amended): on a non-empty trackpoint sequence, proximity
detection always produces a valid boundary set; distance-threshold
detection produces a valid boundary set whenever it produces one at all
(it returns nil on fewer than 2 points); even-spacing segmentation
produces a valid boundary set provided the first point's arc length is not
positive (as holds for every reconstructed track, whose arc length starts
at 0) — without that proviso its index 0 can be emitted twice. -/
theorem C2_theorem (points : List Trackpoint) (hne : points ≠ []) :
    (∀ radius minLapDistance : F64,
      lapIdxOK (DetectLapsNearStart points radius minLapDistance) points.length)
    ∧ (∀ expectedLap tolerance minLapDistance : F64,
      FindLapIndicesByDistanceWithMin points expectedLap tolerance minLapDistance ≠ [] →
      lapIdxOK (FindLapIndicesByDistanceWithMin points expectedLap tolerance minLapDistance)
        points.length)
    ∧ (∀ laps : ℤ, flt (fq 0) (points.headD default).S = false →
      lapIdxOK (BuildEvenLapIdx points laps) points.length) := by
  match points, hne with
  | p0 :: tl, _ =>
  refine ⟨?_, ?_, ?_⟩
  · intro radius minLapDistance
    simp only [DetectLapsNearStart]
    exact lapIdxOK_assemble _ _ (by simp)
      (scanIdxAux_chain _ tl 1 p0.S 0 Nat.one_pos)
      (fun j hj => by
        have := (scanIdxAux_mem _ tl 1 p0.S j hj).2
        simp only [List.length_cons]
        omega)
  · intro expectedLap tolerance minLapDistance hres
    match tl with
    | [] => exact absurd rfl hres
    | p1 :: tl2 =>
      simp only [FindLapIndicesByDistanceWithMin]
      exact lapIdxOK_assemble _ _ (by simp)
        (scanIdxAux_chain _ (p1 :: tl2) 1 p0.S 0 Nat.one_pos)
        (fun j hj => by
          have := (scanIdxAux_mem _ (p1 :: tl2) 1 p0.S j hj).2
          simp only [List.length_cons] at this ⊢
          omega)
  · intro laps hS
    simp only [List.headD_cons] at hS
    simp only [BuildEvenLapIdx]
    split
    · exact lapIdxOK_pair _ (by simp)
    · next hguard =>
      split
      · exact lapIdxOK_pair _ (by simp)
      · next htd =>
        rw [not_or] at hguard
        have hlaps : 1 ≤ laps := by omega
        have hfle : fle (fdiv ((p0 :: tl).getLastD default).S (fq (laps:ℚ))) p0.S = false := by
          cases hT : ((p0 :: tl).getLastD default).S with
          | nf => rfl
          | v T =>
            have hT0 : 0 < T := by
              by_contra hc
              apply htd
              rw [hT, show fq 0 = F64.v 0 from rfl]
              exact (fle_iff T 0).mpr (by linarith)
            have hql : (0:ℚ) < (laps:ℚ) := by exact_mod_cast (by omega : (0:ℤ) < laps)
            have hlapv : fdiv (F64.v T) (fq (laps:ℚ)) = F64.v (T / (laps:ℚ)) := by
              simp [fdiv, fq, ne_of_gt hql]
            rw [hlapv]
            have hpos : 0 < T / (laps:ℚ) := div_pos hT0 hql
            cases hps : p0.S with
            | nf => rfl
            | v s =>
              rw [hps, show fq 0 = F64.v 0 from rfl] at hS
              have hs0 : s ≤ 0 := by
                by_contra hc
                rw [show flt (F64.v 0) (F64.v s) = decide (0 < s) from rfl] at hS
                simp at hS
                linarith
              rw [show fle (F64.v (T / (laps:ℚ))) (F64.v s) = decide (T / (laps:ℚ) ≤ s) from rfl]
              simp only [decide_eq_false_iff_not, not_le]
              linarith
        have hstep : evenAux (fdiv ((p0 :: tl).getLastD default).S (fq (laps:ℚ))) laps
            (p0 :: tl) 0 (fdiv ((p0 :: tl).getLastD default).S (fq (laps:ℚ))) 1
            = evenAux (fdiv ((p0 :: tl).getLastD default).S (fq (laps:ℚ))) laps
              tl 1 (fdiv ((p0 :: tl).getLastD default).S (fq (laps:ℚ))) 1 := by
          simp only [evenAux, hfle, Bool.false_and]
          rw [if_neg (by simp)]
        rw [hstep]
        exact lapIdxOK_assemble _ _ (by simp)
          (evenAux_chain _ _ tl 1 _ 1 0 Nat.one_pos)
          (fun j hj => by
            have := (evenAux_mem _ _ tl 1 _ 1 j hj).2
            simp only [List.length_cons]
            omega)

/-- Claim C2 as stated is false: on the single-point sequence whose arc
length is already 10, even-spacing segmentation with 2 laps emits index 0
twice — the boundary set `[0, 0, 1]` is not strictly increasing. -/
theorem C2_counterexample :
    BuildEvenLapIdx [⟨fq 10, fq 0, fq 0, fq 0⟩] 2 = [0, 0, 1] ∧
    ¬ lapIdxOK [0, 0, 1] 1 := by
  constructor
  · decide
  · intro h
    have := h.2.1
    simp [List.chain'_cons] at this

theorem C2_witness :
    lapIdxOK (DetectLapsNearStart [⟨fq 0, fq 0, fq 0, fq 0⟩] (fq 1) (fq 1)) 1 ∧
    lapIdxOK (BuildEvenLapIdx [⟨fq 0, fq 0, fq 0, fq 0⟩] 2) 1 := by
  have h := C2_theorem [⟨fq 0, fq 0, fq 0, fq 0⟩] (by simp)
  exact ⟨h.1 (fq 1) (fq 1), h.2.2 2 (by decide)⟩

/-
Master Builder: `track.CloseLoop`, `track.RecomputeArcLength`,
`track.NormalizeLapSegment`, `track.resampleLap`, `track.alignLapToRef` and
`track.BuildMasterLap` (src/track/track.go lines 9-216 and 459-515).
`alignLapToRef` is split into named definitions for its centroid, optimal
rotation, optimal scale, application and start-anchoring blocks, mirroring
the commented blocks of the Go function.
-/

/-- Embedded `track.CloseLoop`. -/
def CloseLoop (points : List Trackpoint) : List Trackpoint :=
  if points.length < 2 then points
  else
    let start := points.headD default
    let stop := points.getLastD default
    let dx := fsub stop.X start.X
    let dy := fsub stop.Y start.Y
    if dx = fq 0 ∧ dy = fq 0 then points
    else
      let n := points.length
      let out := points.enum.map (fun ip =>
        let t := fdiv (fq (ip.1 : ℚ)) (fq ((n - 1 : ℕ) : ℚ))
        { ip.2 with X := fsub ip.2.X (fmul t dx), Y := fsub ip.2.Y (fmul t dy) })
      out.set (n - 1) { out.getD (n-1) default with
        X := (out.getD 0 default).X, Y := (out.getD 0 default).Y }

/-- Accumulating loop of `track.RecomputeArcLength`: the carried point is
the previous output point (same coordinates as the input, recomputed S). -/
def recomputeAux (m : NumModel) (prev : Trackpoint) : List Trackpoint → List Trackpoint
  | [] => [prev]
  | p :: rest =>
    let s := fadd prev.S (m.hypot (fsub p.X prev.X) (fsub p.Y prev.Y))
    prev :: recomputeAux m { p with S := s } rest

/-- Embedded `track.RecomputeArcLength`. -/
def RecomputeArcLength (m : NumModel) (points : List Trackpoint) : List Trackpoint :=
  match points with
  | [] => points
  | p0 :: rest => recomputeAux m { p0 with S := fq 0 } rest

/-- Embedded `track.NormalizeLapSegment`. -/
def NormalizeLapSegment (m : NumModel) (points : List Trackpoint) : List Trackpoint :=
  RecomputeArcLength m (CloseLoop points)

/-- The forward-advancing cursor of `track.resampleLap`
(`for j < len(lap)-1 && lap[j+1].S < targetS { j++ }`), with fuel
`lap.length` — enough for the cursor, which only moves forward, to reach
the end of the lap. -/
def advanceJ (lap : List Trackpoint) (targetS : F64) : ℕ → ℕ → ℕ
  | 0, j => j
  | fuel+1, j =>
    if j + 1 < lap.length ∧ flt ((lap.getD (j+1) default).S) targetS = true
    then advanceJ lap targetS fuel (j+1)
    else j

/-- Body of the resampling loop of `track.resampleLap`, iterating over the
output indices and carrying the cursor `j`. -/
def resampleGo (lap : List Trackpoint) (s0 lapLen : F64) (samples : ℕ) :
    List ℕ → ℕ → List Trackpoint
  | [], _ => []
  | i :: is, j =>
    let targetLocal := fdiv (fmul (fq (i : ℚ)) lapLen) (fq ((samples - 1 : ℕ) : ℚ))
    let targetS := fadd s0 targetLocal
    let j2 := advanceJ lap targetS lap.length j
    if j2 = lap.length - 1 then
      { lap.getLastD default with S := targetLocal } :: resampleGo lap s0 lapLen samples is j2
    else
      let p1 := lap.getD j2 default
      let p2 := lap.getD (j2+1) default
      let denom := fsub p2.S p1.S
      let t := if flt (fq 0) denom then fdiv (fsub targetS p1.S) denom else fq 0
      (⟨targetLocal,
        fadd p1.X (fmul t (fsub p2.X p1.X)),
        fadd p1.Y (fmul t (fsub p2.Y p1.Y)),
        fadd p1.Theta (fmul t (fsub p2.Theta p1.Theta))⟩ : Trackpoint)
        :: resampleGo lap s0 lapLen samples is j2

/-- Embedded `track.resampleLap`: `nil` results are `none`. -/
def resampleLap (points : List Trackpoint) (start endI : ℕ) (samples : ℤ) :
    Option (List Trackpoint) :=
  if endI ≤ start + 1 ∨ samples < 2 then none
  else
    let lap := (points.drop start).take (endI - start)
    let s0 := (lap.headD default).S
    let sEnd := (lap.getLastD default).S
    let lapLen := fsub sEnd s0
    if fle lapLen (fq 0) then none
    else some (resampleGo lap s0 lapLen samples.toNat (List.range samples.toNat) 0)

/-- Centroid block of `track.alignLapToRef` (lines 137-149): accumulate the
coordinate sums, then multiply by `invN = 1/n`. -/
def alignCentroid (lap : List Trackpoint) : F64 × F64 :=
  let invN := fdiv (fq 1) (fq (lap.length : ℚ))
  (fmul (lap.foldl (fun acc p => fadd acc p.X) (fq 0)) invN,
   fmul (lap.foldl (fun acc p => fadd acc p.Y) (fq 0)) invN)

/-- One iteration of the rotation accumulators of `track.alignLapToRef`
(lines 151-161): `a += lx*rx + ly*ry; b += lx*ry - ly*rx`. -/
def abStep (cR cL : F64 × F64) (ab : F64 × F64) (rl : Trackpoint × Trackpoint) :
    F64 × F64 :=
  let rx := fsub rl.1.X cR.1
  let ry := fsub rl.1.Y cR.2
  let lx := fsub rl.2.X cL.1
  let ly := fsub rl.2.Y cL.2
  (fadd ab.1 (fadd (fmul lx rx) (fmul ly ry)),
   fadd ab.2 (fsub (fmul lx ry) (fmul ly rx)))

/-- Rotation accumulators of `track.alignLapToRef` (lines 151-161). -/
def alignAB (ref lap : List Trackpoint) (cR cL : F64 × F64) : F64 × F64 :=
  (ref.zip lap).foldl (abStep cR cL) (fq 0, fq 0)

/-- Optimal-rotation block of `track.alignLapToRef` (lines 163-168):
`denom := Hypot(a, b); cosT, sinT := 1, 0; if denom > 0 { cosT = a/denom;
sinT = b/denom }`. -/
def alignRot (m : NumModel) (ab : F64 × F64) : F64 × F64 :=
  let denom := m.hypot ab.1 ab.2
  if flt (fq 0) denom then (fdiv ab.1 denom, fdiv ab.2 denom) else (fq 1, fq 0)

/-- One iteration of the optimal-scale accumulators of
`track.alignLapToRef` (lines 172-181): `num += rx*rxPrime + ry*ryPrime;
den += lx*lx + ly*ly`. -/
def scaleStep (cR cL : F64 × F64) (cs : F64 × F64) (acc : F64 × F64)
    (rl : Trackpoint × Trackpoint) : F64 × F64 :=
  let lx := fsub rl.2.X cL.1
  let ly := fsub rl.2.Y cL.2
  let rx := fsub rl.1.X cR.1
  let ry := fsub rl.1.Y cR.2
  let rxP := fsub (fmul cs.1 lx) (fmul cs.2 ly)
  let ryP := fadd (fmul cs.2 lx) (fmul cs.1 ly)
  (fadd acc.1 (fadd (fmul rx rxP) (fmul ry ryP)),
   fadd acc.2 (fadd (fmul lx lx) (fmul ly ly)))

/-- Optimal-scale block of `track.alignLapToRef` (lines 170-185). -/
def alignScale (ref lap : List Trackpoint) (cR cL : F64 × F64) (cs : F64 × F64) : F64 :=
  let nd := (ref.zip lap).foldl (scaleStep cR cL cs) (fq 0, fq 0)
  if flt (fq 0) nd.2 then fdiv nd.1 nd.2 else fq 1

/-- Rotation+scale+translation application of `track.alignLapToRef`
(lines 187-203). -/
def alignApply (lap : List Trackpoint) (cR cL : F64 × F64) (cs : F64 × F64)
    (scale : F64) : List Trackpoint :=
  lap.map (fun p =>
    let dx := fsub p.X cL.1
    let dy := fsub p.Y cL.2
    { p with
      X := fadd (fmul (fsub (fmul cs.1 dx) (fmul cs.2 dy)) scale) cR.1,
      Y := fadd (fmul (fadd (fmul cs.2 dx) (fmul cs.1 dy)) scale) cR.2 })

/-- Start-anchoring block of `track.alignLapToRef` (lines 205-213). -/
def alignShift (ref out : List Trackpoint) : List Trackpoint :=
  let shiftX := fsub (ref.headD default).X ((out.headD default).X)
  let shiftY := fsub (ref.headD default).Y ((out.headD default).Y)
  if shiftX ≠ fq 0 ∨ shiftY ≠ fq 0 then
    out.map (fun p => { p with X := fadd p.X shiftX, Y := fadd p.Y shiftY })
  else out

/-- Embedded `track.alignLapToRef`. -/
def alignLapToRef (m : NumModel) (ref lap : List Trackpoint) : List Trackpoint :=
  if lap.length ≠ ref.length ∨ ref.length = 0 then lap
  else
    let cR := alignCentroid ref
    let cL := alignCentroid lap
    let ab := alignAB ref lap cR cL
    let cs := alignRot m ab
    let scale := alignScale ref lap cR cL cs
    alignShift ref (alignApply lap cR cL cs scale)

/-- Step 1 of `track.BuildMasterLap`: complete the boundary list, slice,
normalize and resample each lap, dropping degenerate ones. -/
def resampledLaps (m : NumModel) (points : List Trackpoint) (lapIdx : List ℕ)
    (samples : ℤ) : List (List Trackpoint) :=
  let lapIdx2 := if lapIdx.getLastD 0 = points.length then lapIdx
                 else lapIdx ++ [points.length]
  (lapIdx2.zip lapIdx2.tail).foldr (fun se acc =>
    let endI := min se.2 points.length
    if endI ≤ se.1 + 1 then acc
    else
      let nl := NormalizeLapSegment m ((points.drop se.1).take (endI - se.1))
      match resampleLap nl 0 nl.length samples with
      | none => acc
      | some lap => lap :: acc) []

/-- Step 2 of `track.BuildMasterLap`: the first resampled lap is the
reference; every other lap is aligned to it. -/
def alignedLaps (m : NumModel) (points : List Trackpoint) (lapIdx : List ℕ)
    (samples : ℤ) : List (List Trackpoint) :=
  match resampledLaps m points lapIdx samples with
  | [] => []
  | r :: rest => r :: rest.map (alignLapToRef m r)

/-- Embedded `track.BuildMasterLap` (`nil` is `none`). -/
def BuildMasterLap (m : NumModel) (points : List Trackpoint) (lapIdx : List ℕ)
    (samples : ℤ) : Option (List Trackpoint) :=
  if lapIdx.length < 2 ∨ samples < 2 then none
  else
    match alignedLaps m points lapIdx samples with
    | [] => none
    | r :: rest =>
      some ((List.range samples.toNat).map (fun i =>
        ⟨(r.getD i default).S,
         fdiv ((r :: rest).foldl (fun acc lap => fadd acc ((lap.getD i default).X)) (fq 0))
           (fq ((r :: rest).length : ℚ)),
         fdiv ((r :: rest).foldl (fun acc lap => fadd acc ((lap.getD i default).Y)) (fq 0))
           (fq ((r :: rest).length : ℚ)),
         fq 0⟩))

/-- Claim C8: `BuildMasterLap` returns no output whenever it is given fewer
than 2 lap boundaries or a target sample count smaller than 2, for every
input point sequence. -/
theorem C8_theorem (m : NumModel) (points : List Trackpoint) (lapIdx : List ℕ)
    (samples : ℤ) (h : lapIdx.length < 2 ∨ samples < 2) :
    BuildMasterLap m points lapIdx samples = none := by
  unfold BuildMasterLap
  rw [if_pos h]

theorem C8_witness :
    BuildMasterLap cmodel [] [0] 5 = none ∧
    BuildMasterLap cmodel [⟨fq 0, fq 0, fq 0, fq 0⟩] [0, 1] 1 = none :=
  ⟨C8_theorem cmodel [] [0] 5 (Or.inl (by decide)),
   C8_theorem cmodel [⟨fq 0, fq 0, fq 0, fq 0⟩] [0, 1] 1 (Or.inr (by decide))⟩

/-- Spec wording for the master averaging step: the mean of a list of
values (here: one aligned lap's coordinate at a fixed resampled index per
entry). -/
def meanF (xs : List F64) : F64 :=
  fdiv (xs.foldr fadd (fq 0)) (fq (xs.length : ℚ))

/-- Claim C3 (amended): each master point at resampled index `i` carries
the reference (first aligned) lap's arc length, the mean of the aligned
laps' X at `i` and the mean of their Y at `i` — but its heading is the
constant 0, not the mean of the aligned headings (`Theta: 0` in the Go
source, with the comment "optional; you can average heading if needed"). -/
theorem C3_theorem (m : NumModel) (points : List Trackpoint) (lapIdx : List ℕ)
    (samples : ℤ) (master : List Trackpoint)
    (hok : BuildMasterLap m points lapIdx samples = some master) :
    master.length = samples.toNat ∧
    ∀ i, i < samples.toNat →
      master.getD i default =
        ⟨(((alignedLaps m points lapIdx samples).headD []).getD i default).S,
         meanF ((alignedLaps m points lapIdx samples).map (fun lap => (lap.getD i default).X)),
         meanF ((alignedLaps m points lapIdx samples).map (fun lap => (lap.getD i default).Y)),
         fq 0⟩ := by
  unfold BuildMasterLap at hok
  split at hok
  · simp at hok
  · split at hok
    · simp at hok
    · next r rest heq =>
      have hm : master = (List.range samples.toNat).map (fun i =>
          (⟨(r.getD i default).S,
           fdiv ((r :: rest).foldl (fun acc lap => fadd acc ((lap.getD i default).X)) (fq 0))
             (fq ((r :: rest).length : ℚ)),
           fdiv ((r :: rest).foldl (fun acc lap => fadd acc ((lap.getD i default).Y)) (fq 0))
             (fq ((r :: rest).length : ℚ)),
           fq 0⟩ : Trackpoint)) := (Option.some.inj hok).symm
      subst hm
      constructor
      · simp
      · intro i hi
        rw [List.getD_eq_getElem?_getD, List.getElem?_map, List.getElem?_range hi]
        rw [heq]
        simp only [Option.map_some', Option.getD_some, List.headD_cons,
          Trackpoint.mk.injEq]
        refine ⟨trivial, ?_, ?_, trivial⟩
        · unfold meanF
          rw [← List.foldl_map (fun lap : List Trackpoint => (lap.getD i default).X) fadd]
          rw [List.foldl_eq_foldr]
          congr 1
          simp
        · unfold meanF
          rw [← List.foldl_map (fun lap : List Trackpoint => (lap.getD i default).Y) fadd]
          rw [List.foldl_eq_foldr]
          congr 1
          simp

/-- Input points of the C3 counterexample: a 3-point lap whose headings are
all 1. -/
def c3pts : List Trackpoint :=
  [⟨fq 0, fq 0, fq 0, fq 1⟩, ⟨fq 1, fq 3, fq 0, fq 1⟩, ⟨fq 2, fq 0, fq 4, fq 1⟩]

/-- Claim C3 as stated is false: the master heading is the constant 0, not
the mean of the aligned laps' headings — here every aligned heading is 1,
so the mean is 1, while the produced master points carry heading 0. -/
theorem C3_counterexample :
    BuildMasterLap cmodel c3pts [0, 3] 2
      = some [⟨fq 0, fq 0, fq 0, fq 0⟩, ⟨fq 10, fq 0, fq 0, fq 0⟩]
    ∧ meanF ((alignedLaps cmodel c3pts [0, 3] 2).map
        (fun lap => (lap.getD 0 default).Theta)) = fq 1
    ∧ (fq 0 : F64) ≠ fq 1 := by
  refine ⟨by decide, by decide, by decide⟩

theorem C3_witness :
    ∃ master, BuildMasterLap cmodel c3pts [0, 3] 2 = some master ∧
      master.getD 1 default =
        ⟨(((alignedLaps cmodel c3pts [0, 3] 2).headD []).getD 1 default).S,
         meanF ((alignedLaps cmodel c3pts [0, 3] 2).map (fun lap => (lap.getD 1 default).X)),
         meanF ((alignedLaps cmodel c3pts [0, 3] 2).map (fun lap => (lap.getD 1 default).Y)),
         fq 0⟩ := by
  refine ⟨[⟨fq 0, fq 0, fq 0, fq 0⟩, ⟨fq 10, fq 0, fq 0, fq 0⟩], by decide, ?_⟩
  exact (C3_theorem cmodel c3pts [0, 3] 2 _ (by decide)).2 1 (by decide)

/-- Finiteness of a trackpoint's planar coordinates. -/
def TpFinXY (p : Trackpoint) : Prop :=
  (∃ q : ℚ, p.X = F64.v q) ∧ (∃ q : ℚ, p.Y = F64.v q)

theorem foldl_faddX_fin :
    ∀ (l : List Trackpoint), (∀ p ∈ l, ∃ q : ℚ, p.X = F64.v q) →
      ∀ a : ℚ, ∃ s : ℚ, l.foldl (fun acc p => fadd acc p.X) (F64.v a) = F64.v s := by
  intro l
  induction l with
  | nil => intro _ a; exact ⟨a, rfl⟩
  | cons p tl ih =>
    intro hfin a
    obtain ⟨q, hq⟩ := hfin p (List.mem_cons_self p tl)
    simp only [List.foldl_cons, hq]
    exact ih (fun x hx => hfin x (List.mem_cons_of_mem p hx)) (a + q)

theorem foldl_faddY_fin :
    ∀ (l : List Trackpoint), (∀ p ∈ l, ∃ q : ℚ, p.Y = F64.v q) →
      ∀ a : ℚ, ∃ s : ℚ, l.foldl (fun acc p => fadd acc p.Y) (F64.v a) = F64.v s := by
  intro l
  induction l with
  | nil => intro _ a; exact ⟨a, rfl⟩
  | cons p tl ih =>
    intro hfin a
    obtain ⟨q, hq⟩ := hfin p (List.mem_cons_self p tl)
    simp only [List.foldl_cons, hq]
    exact ih (fun x hx => hfin x (List.mem_cons_of_mem p hx)) (a + q)

/-- On a non-empty lap of finite coordinates the centroid is finite. -/
theorem alignCentroid_fin (lap : List Trackpoint) (hne : lap ≠ [])
    (hfin : ∀ p ∈ lap, TpFinXY p) :
    ∃ cx cy : ℚ, alignCentroid lap = (F64.v cx, F64.v cy) := by
  obtain ⟨sx, hsx⟩ := foldl_faddX_fin lap (fun p hp => (hfin p hp).1) 0
  obtain ⟨sy, hsy⟩ := foldl_faddY_fin lap (fun p hp => (hfin p hp).2) 0
  have hn : ((lap.length : ℚ)) ≠ 0 := by
    have h0 : lap.length ≠ 0 := fun h => hne (List.length_eq_zero.mp h)
    exact_mod_cast h0
  have hinv : fdiv (fq 1) (fq (lap.length : ℚ)) = F64.v (1 / (lap.length : ℚ)) := by
    simp [fdiv, fq, hn]
  refine ⟨sx * (1 / (lap.length : ℚ)), sy * (1 / (lap.length : ℚ)), ?_⟩
  simp only [alignCentroid]
  rw [show (fq 0 : F64) = F64.v 0 from rfl, hsx, hsy, hinv]
  rfl

/-- With identical reference and lap and a common finite centroid, the
rotation accumulator fold keeps `b` unchanged and only grows `a`. -/
theorem abStep_fold_self (cx cy : ℚ) :
    ∀ (l : List Trackpoint), (∀ p ∈ l, TpFinXY p) → ∀ a b : ℚ,
      ∃ A : ℚ, a ≤ A ∧
        (l.zip l).foldl (abStep (F64.v cx, F64.v cy) (F64.v cx, F64.v cy))
          (F64.v a, F64.v b) = (F64.v A, F64.v b) := by
  intro l
  induction l with
  | nil => intro _ a b; exact ⟨a, le_refl a, rfl⟩
  | cons p tl ih =>
    intro hfin a b
    obtain ⟨⟨x, hx⟩, ⟨y, hy⟩⟩ := hfin p (List.mem_cons_self p tl)
    have hstep : abStep (F64.v cx, F64.v cy) (F64.v cx, F64.v cy) (F64.v a, F64.v b) (p, p)
        = (F64.v (a + ((x - cx) * (x - cx) + (y - cy) * (y - cy))), F64.v b) := by
      unfold abStep
      dsimp only
      rw [hx, hy]
      have h2 : b + ((x - cx) * (y - cy) - (y - cy) * (x - cx)) = b := by ring
      rw [Prod.mk.injEq]
      exact ⟨rfl, congrArg F64.v h2⟩
    have hz : ((p :: tl).zip (p :: tl)) = (p, p) :: tl.zip tl := rfl
    rw [hz, List.foldl_cons, hstep]
    obtain ⟨A, hA, hfold⟩ := ih (fun q hq => hfin q (List.mem_cons_of_mem p hq))
      (a + ((x - cx) * (x - cx) + (y - cy) * (y - cy))) b
    refine ⟨A, ?_, hfold⟩
    have h1 : (0 : ℚ) ≤ (x - cx) * (x - cx) := mul_self_nonneg _
    have h2 : (0 : ℚ) ≤ (y - cy) * (y - cy) := mul_self_nonneg _
    linarith

/-- Aligning a lap with itself: the cross accumulator `b` is exactly `0` and
the dot accumulator `a` is non-negative. -/
theorem alignAB_self (cx cy : ℚ) (lap : List Trackpoint)
    (hfin : ∀ p ∈ lap, TpFinXY p) :
    ∃ A : ℚ, 0 ≤ A ∧
      alignAB lap lap (F64.v cx, F64.v cy) (F64.v cx, F64.v cy) = (F64.v A, F64.v 0) := by
  obtain ⟨A, hA, hfold⟩ := abStep_fold_self cx cy lap hfin 0 0
  exact ⟨A, hA, hfold⟩

/-- On accumulators `(a, 0)` with `a ≥ 0` the rotation block yields the
identity rotation `cosT = 1, sinT = 0` in every model. -/
theorem alignRot_self (m : NumModel) (A : ℚ) (hA : 0 ≤ A) :
    alignRot m (F64.v A, F64.v 0) = (fq 1, fq 0) := by
  unfold alignRot
  dsimp only
  rw [m.hypot_x_zero A, abs_of_nonneg hA]
  by_cases h : flt (fq 0) (F64.v A) = true
  · rw [if_pos h]
    have h0 : (0 : ℚ) < A := by simpa [flt, fq] using h
    rw [Prod.mk.injEq]
    constructor
    · show fdiv (F64.v A) (F64.v A) = fq 1
      simp [fdiv, h0.ne', div_self h0.ne', fq]
    · show fdiv (F64.v 0) (F64.v A) = fq 0
      simp [fdiv, h0.ne', fq]
  · rw [if_neg h]

/-- With identical reference and lap, common finite centroid and the identity
rotation, the scale fold keeps numerator and denominator equal. -/
theorem scaleStep_fold_self (cx cy : ℚ) :
    ∀ (l : List Trackpoint), (∀ p ∈ l, TpFinXY p) → ∀ a : ℚ,
      ∃ A : ℚ, a ≤ A ∧
        (l.zip l).foldl (scaleStep (F64.v cx, F64.v cy) (F64.v cx, F64.v cy) (fq 1, fq 0))
          (F64.v a, F64.v a) = (F64.v A, F64.v A) := by
  intro l
  induction l with
  | nil => intro _ a; exact ⟨a, le_refl a, rfl⟩
  | cons p tl ih =>
    intro hfin a
    obtain ⟨⟨x, hx⟩, ⟨y, hy⟩⟩ := hfin p (List.mem_cons_self p tl)
    have hstep : scaleStep (F64.v cx, F64.v cy) (F64.v cx, F64.v cy) (fq 1, fq 0)
        (F64.v a, F64.v a) (p, p)
        = (F64.v (a + ((x - cx) * (x - cx) + (y - cy) * (y - cy))),
           F64.v (a + ((x - cx) * (x - cx) + (y - cy) * (y - cy)))) := by
      unfold scaleStep
      dsimp only
      rw [hx, hy]
      have hr : (x - cx) * (1 * (x - cx) - 0 * (y - cy))
            + (y - cy) * (0 * (x - cx) + 1 * (y - cy))
          = (x - cx) * (x - cx) + (y - cy) * (y - cy) := by ring
      rw [Prod.mk.injEq]
      exact ⟨congrArg (fun t => F64.v (a + t)) hr, rfl⟩
    have hz : ((p :: tl).zip (p :: tl)) = (p, p) :: tl.zip tl := rfl
    rw [hz, List.foldl_cons, hstep]
    obtain ⟨A, hA, hfold⟩ := ih (fun q hq => hfin q (List.mem_cons_of_mem p hq))
      (a + ((x - cx) * (x - cx) + (y - cy) * (y - cy)))
    refine ⟨A, ?_, hfold⟩
    have h1 : (0 : ℚ) ≤ (x - cx) * (x - cx) := mul_self_nonneg _
    have h2 : (0 : ℚ) ≤ (y - cy) * (y - cy) := mul_self_nonneg _
    linarith

/-- Aligning a lap with itself under the identity rotation gives scale `1`:
either the denominator is positive and equals the numerator, or the `> 0`
guard fails and the default `1` is kept. -/
theorem alignScale_self (cx cy : ℚ) (lap : List Trackpoint)
    (hfin : ∀ p ∈ lap, TpFinXY p) :
    alignScale lap lap (F64.v cx, F64.v cy) (F64.v cx, F64.v cy) (fq 1, fq 0) = fq 1 := by
  obtain ⟨A, hA, hfold⟩ := scaleStep_fold_self cx cy lap hfin 0
  unfold alignScale
  dsimp only
  rw [show ((fq 0 : F64), (fq 0 : F64)) = ((F64.v 0 : F64), (F64.v 0 : F64)) from rfl]
  rw [hfold]
  dsimp only
  by_cases h : flt (fq 0) (F64.v A) = true
  · rw [if_pos h]
    have h0 : (0 : ℚ) < A := by simpa [flt, fq] using h
    simp [fdiv, h0.ne', div_self h0.ne', fq]
  · rw [if_neg h]

/-- Applying the identity rotation, scale `1` and a translation from a
centroid back to itself maps every finite-coordinate point to itself. -/
theorem alignApply_self (cx cy : ℚ) :
    ∀ (lap : List Trackpoint), (∀ p ∈ lap, TpFinXY p) →
      alignApply lap (F64.v cx, F64.v cy) (F64.v cx, F64.v cy) (fq 1, fq 0) (fq 1) = lap := by
  intro lap
  induction lap with
  | nil => intro _; rfl
  | cons p tl ih =>
    intro hfin
    obtain ⟨⟨x, hx⟩, ⟨y, hy⟩⟩ := hfin p (List.mem_cons_self p tl)
    have htl := ih (fun q hq => hfin q (List.mem_cons_of_mem p hq))
    simp only [alignApply] at htl ⊢
    rw [List.map_cons, htl]
    congr 1
    show ({ p with
        X := fadd (fmul (fsub (fmul (fq 1) (fsub p.X (F64.v cx)))
               (fmul (fq 0) (fsub p.Y (F64.v cy)))) (fq 1)) (F64.v cx),
        Y := fadd (fmul (fadd (fmul (fq 0) (fsub p.X (F64.v cx)))
               (fmul (fq 1) (fsub p.Y (F64.v cy)))) (fq 1)) (F64.v cy) } : Trackpoint) = p
    rw [hx, hy]
    have hrX : ((1 : ℚ) * (x - cx) - 0 * (y - cy)) * 1 + cx = x := by ring
    have hrY : ((0 : ℚ) * (x - cx) + 1 * (y - cy)) * 1 + cy = y := by ring
    have eX : fadd (fmul (fsub (fmul (fq 1) (fsub (F64.v x) (F64.v cx)))
          (fmul (fq 0) (fsub (F64.v y) (F64.v cy)))) (fq 1)) (F64.v cx) = F64.v x :=
      congrArg F64.v hrX
    have eY : fadd (fmul (fadd (fmul (fq 0) (fsub (F64.v x) (F64.v cx)))
          (fmul (fq 1) (fsub (F64.v y) (F64.v cy)))) (fq 1)) (F64.v cy) = F64.v y :=
      congrArg F64.v hrY
    rw [eX, eY, ← hx, ← hy]

theorem headD_fin_X (lap : List Trackpoint) (hfin : ∀ p ∈ lap, TpFinXY p) :
    ∃ x : ℚ, (lap.headD default).X = F64.v x := by
  cases lap with
  | nil => exact ⟨0, rfl⟩
  | cons p tl => exact (hfin p (List.mem_cons_self p tl)).1

theorem headD_fin_Y (lap : List Trackpoint) (hfin : ∀ p ∈ lap, TpFinXY p) :
    ∃ y : ℚ, (lap.headD default).Y = F64.v y := by
  cases lap with
  | nil => exact ⟨0, rfl⟩
  | cons p tl => exact (hfin p (List.mem_cons_self p tl)).2

/-- Anchoring a lap of finite coordinates to itself computes shift `(0, 0)`
and takes the no-shift branch. -/
theorem alignShift_self (lap : List Trackpoint)
    (hfin : ∀ p ∈ lap, TpFinXY p) : alignShift lap lap = lap := by
  obtain ⟨x, hx⟩ := headD_fin_X lap hfin
  obtain ⟨y, hy⟩ := headD_fin_Y lap hfin
  unfold alignShift
  dsimp only
  rw [hx, hy]
  have hcond : ¬(fsub (F64.v x) (F64.v x) ≠ fq 0 ∨ fsub (F64.v y) (F64.v y) ≠ fq 0) := by
    push_neg
    constructor
    · show F64.v (x - x) = fq 0
      rw [sub_self]
      rfl
    · show F64.v (y - y) = fq 0
      rw [sub_self]
      rfl
  rw [if_neg hcond]

/-- **C9** (amended). Aligning a lap with at least one point to itself as
reference is the identity, provided the lap's planar coordinates are all
finite: the centroid is a finite point `(cx, cy)`, the optimal rotation is
`cosT = 1, sinT = 0` (angle 0), the optimal scale is `1`, applying the
transform returns the lap itself, the anchoring shift `ref[0] - out[0]` is
zero in both components, and `alignLapToRef(lap, lap) = lap`.  (With a
non-finite coordinate the identity fails: see the counterexample.) -/
theorem C9_theorem (m : NumModel) (lap : List Trackpoint) (hne : lap ≠ [])
    (hfin : ∀ p ∈ lap, TpFinXY p) :
    (∃ cx cy : ℚ, alignCentroid lap = (F64.v cx, F64.v cy) ∧
        alignRot m (alignAB lap lap (F64.v cx, F64.v cy) (F64.v cx, F64.v cy)) = (fq 1, fq 0) ∧
        alignScale lap lap (F64.v cx, F64.v cy) (F64.v cx, F64.v cy) (fq 1, fq 0) = fq 1 ∧
        alignApply lap (F64.v cx, F64.v cy) (F64.v cx, F64.v cy) (fq 1, fq 0) (fq 1) = lap) ∧
      fsub ((lap.headD default).X) ((lap.headD default).X) = fq 0 ∧
      fsub ((lap.headD default).Y) ((lap.headD default).Y) = fq 0 ∧
      alignLapToRef m lap lap = lap := by
  obtain ⟨cx, cy, hc⟩ := alignCentroid_fin lap hne hfin
  obtain ⟨A, hA, hab⟩ := alignAB_self cx cy lap hfin
  have hrot : alignRot m (alignAB lap lap (F64.v cx, F64.v cy) (F64.v cx, F64.v cy))
      = (fq 1, fq 0) := by
    rw [hab]
    exact alignRot_self m A hA
  have hscale := alignScale_self cx cy lap hfin
  have happ := alignApply_self cx cy lap hfin
  have hshift := alignShift_self lap hfin
  obtain ⟨hx0, hxv⟩ := headD_fin_X lap hfin
  obtain ⟨hy0, hyv⟩ := headD_fin_Y lap hfin
  have hsx : fsub ((lap.headD default).X) ((lap.headD default).X) = fq 0 := by
    rw [hxv]
    show F64.v (hx0 - hx0) = fq 0
    rw [sub_self]
    rfl
  have hsy : fsub ((lap.headD default).Y) ((lap.headD default).Y) = fq 0 := by
    rw [hyv]
    show F64.v (hy0 - hy0) = fq 0
    rw [sub_self]
    rfl
  refine ⟨⟨cx, cy, hc, hrot, hscale, happ⟩, hsx, hsy, ?_⟩
  unfold alignLapToRef
  rw [if_neg (by push_neg; exact ⟨rfl, fun h => hne (List.length_eq_zero.mp h)⟩)]
  dsimp only
  rw [hc, hab, alignRot_self m A hA, hscale, happ, hshift]

/-- Lap with a non-finite X coordinate at its single point. -/
def c9bad : List Trackpoint := [⟨fq 0, F64.nf, fq 0, fq 0⟩]

/-- **C9 counterexample**. On a one-point lap whose X coordinate is
non-finite, aligning the lap to itself is not the identity: the centroid's X
is non-finite, the `0 * NaN` products poison Y during the transform, and the
anchoring shift (driven by a `NaN != 0` comparison) adds a non-finite shift,
so the output point has non-finite X *and* Y while the input Y was `0`. -/
theorem C9_counterexample :
    alignLapToRef cmodel c9bad c9bad = [⟨fq 0, F64.nf, F64.nf, fq 0⟩] ∧
    alignLapToRef cmodel c9bad c9bad ≠ c9bad := by
  constructor <;> decide

/-- Concrete two-point lap with finite coordinates. -/
def c9lap : List Trackpoint := [⟨fq 0, fq 1, fq 2, fq 3⟩, ⟨fq 5, fq 4, fq 6, fq 7⟩]

theorem C9_witness : alignLapToRef cmodel c9lap c9lap = c9lap :=
  (C9_theorem cmodel c9lap (by simp [c9lap])
    (by
      intro p hp
      simp only [c9lap, List.mem_cons, List.not_mem_nil, or_false] at hp
      rcases hp with h | h <;> subst h <;> exact ⟨⟨_, rfl⟩, ⟨_, rfl⟩⟩)).2.2.2

/-- One `emit` callback invocation of `MapToMaster` (`eventdetection.go`
lines 387-414): the nine arguments of the Go callback. -/
structure Emission where
  idx : ℤ
  relS : F64
  x : F64
  y : F64
  mi : ℕ
  mRelS : F64
  mx : F64
  my : F64
  dist : F64
  deriving DecidableEq, Repr

/-- Scaled lap-local arc length of `MapToMaster`:
`relS := (lap[i].S - lap[0].S) * scaleS`. -/
def relSof (lap : List Trackpoint) (scaleS : F64) (i : ℕ) : F64 :=
  fmul (fsub ((lap.getD i default).S) ((lap.getD 0 default).S)) scaleS

/-- Cursor advance of `MapToMaster`:
`for j+1 < len(master) && master[j+1].S <= relS { j++ }`, with explicit fuel
(`master.length` steps always suffice, see `mtmAdvance_stop`). -/
def mtmAdvance (master : List Trackpoint) (relS : F64) : ℕ → ℕ → ℕ
  | 0, j => j
  | fuel + 1, j =>
    if j + 1 < master.length ∧ fle ((master.getD (j + 1) default).S) relS = true then
      mtmAdvance master relS fuel (j + 1)
    else j

/-- Closest-of-bracket choice of `MapToMaster`: `closest := j;
if j+1 < len(master) { if relS-master[j].S > master[j+1].S-relS
{ closest = j + 1 } }`. -/
def mtmClosest (master : List Trackpoint) (relS : F64) (j : ℕ) : ℕ :=
  if j + 1 < master.length then
    if flt (fsub ((master.getD (j + 1) default).S) relS)
           (fsub relS ((master.getD j default).S)) = true
    then j + 1 else j
  else j

/-- Main loop of `MapToMaster` over the lap indices, collecting the
arguments of each `emit` invocation in order. -/
def mtmGo (lap master : List Trackpoint) (startIndex : ℤ) (scaleS : F64) :
    List ℕ → ℕ → List Emission
  | [], _ => []
  | i :: rest, j =>
    let relS := relSof lap scaleS i
    let j2 := mtmAdvance master relS master.length j
    let closest := mtmClosest master relS j2
    let m := master.getD closest default
    let p := lap.getD i default
    { idx := startIndex + (i : ℤ), relS := relS, x := p.X, y := p.Y,
      mi := closest, mRelS := m.S, mx := m.X, my := m.Y,
      dist := fadd (fmul (fsub p.X m.X) (fsub p.X m.X))
                   (fmul (fsub p.Y m.Y) (fsub p.Y m.Y)) }
      :: mtmGo lap master startIndex scaleS rest j2

/-- Embedded `track.MapToMaster` (`eventdetection.go` lines 387-414).  The Go
callback is modelled by collecting the `emit` arguments into a list; a `nil`
callback is modelled by `hasCallback = false`. -/
def MapToMaster (lap master : List Trackpoint) (startIndex : ℤ) (scaleS : F64)
    (hasCallback : Bool) : List Emission :=
  if lap.length = 0 ∨ master.length = 0 ∨ hasCallback = false then []
  else
    let scaleS2 := if scaleS = fq 0 then fq 1 else scaleS
    mtmGo lap master startIndex scaleS2 (List.range lap.length) 0

theorem fle_trans_f (a b c : F64) (h1 : fle a b = true) (h2 : fle b c = true) :
    fle a c = true := by
  cases a <;> cases b <;> cases c <;> simp [fle] at h1 h2 ⊢ <;> exact le_trans h1 h2

/-- With fuel covering the remaining indices, the cursor stops exactly when
the Go `for` condition fails. -/
theorem mtmAdvance_stop (master : List Trackpoint) (relS : F64) :
    ∀ (fuel j : ℕ), master.length ≤ fuel + j →
      ¬(mtmAdvance master relS fuel j + 1 < master.length ∧
        fle ((master.getD (mtmAdvance master relS fuel j + 1) default).S) relS = true) := by
  intro fuel
  induction fuel with
  | zero =>
    intro j hj
    simp only [mtmAdvance]
    rintro ⟨h1, _⟩
    omega
  | succ n ih =>
    intro j hj
    by_cases h : j + 1 < master.length ∧ fle ((master.getD (j + 1) default).S) relS = true
    · simp only [mtmAdvance, if_pos h]
      exact ih (j + 1) (by omega)
    · simp only [mtmAdvance, if_neg h]
      exact h

theorem mtmAdvance_lt (master : List Trackpoint) (relS : F64) :
    ∀ (fuel j : ℕ), j < master.length → mtmAdvance master relS fuel j < master.length := by
  intro fuel
  induction fuel with
  | zero => intro j hj; simpa [mtmAdvance] using hj
  | succ n ih =>
    intro j hj
    by_cases h : j + 1 < master.length ∧ fle ((master.getD (j + 1) default).S) relS = true
    · simp only [mtmAdvance, if_pos h]
      exact ih (j + 1) h.1
    · simp only [mtmAdvance, if_neg h]
      exact hj

/-- The cursor invariant `j = 0 ∨ master[j].S <= relS` is preserved by the
advance loop. -/
theorem mtmAdvance_inv (master : List Trackpoint) (relS : F64) :
    ∀ (fuel j : ℕ),
      (j = 0 ∨ fle ((master.getD j default).S) relS = true) →
      (mtmAdvance master relS fuel j = 0 ∨
       fle ((master.getD (mtmAdvance master relS fuel j) default).S) relS = true) := by
  intro fuel
  induction fuel with
  | zero => intro j hj; simpa [mtmAdvance] using hj
  | succ n ih =>
    intro j hj
    by_cases h : j + 1 < master.length ∧ fle ((master.getD (j + 1) default).S) relS = true
    · simp only [mtmAdvance, if_pos h]
      exact ih (j + 1) (Or.inr h.2)
    · simp only [mtmAdvance, if_neg h]
      exact hj

/-- A list of points whose arc lengths are the embedded rationals `qs` has
`S` values given pointwise by `qs`. -/
theorem masterS_eq (master : List Trackpoint) (qs : List ℚ)
    (hqs : master.map (fun p => p.S) = qs.map F64.v) :
    ∀ k, k < master.length → (master.getD k default).S = F64.v (qs.getD k 0) := by
  intro k hk
  have hlen : master.length = qs.length := by
    have h := congrArg List.length hqs
    simpa using h
  have hkm : k < (master.map (fun p => p.S)).length := by simpa using hk
  have h2 := List.getElem_of_eq hqs hkm
  rw [List.getElem_map, List.getElem_map] at h2
  rw [List.getD_eq_getElem master default hk, List.getD_eq_getElem qs 0 (hlen ▸ hk)]
  exact h2

/-- Rational core of the nearest-bracket property: on a sorted list, from a
cursor position `j` with `qs[j] <= r` (or `j = 0`) and `r < qs[j+1]` (or no
successor), the closer of `j` and `j+1` is a global nearest index. -/
theorem sorted_nearest_core (qs : List ℚ) (hsort : qs.Chain' (fun a b => a ≤ b))
    (r : ℚ) (j : ℕ) (hj : j < qs.length)
    (hlow : j = 0 ∨ qs.getD j 0 ≤ r)
    (hstop : ¬(j + 1 < qs.length ∧ qs.getD (j + 1) 0 ≤ r)) (c : ℕ)
    (hc : c = if j + 1 < qs.length ∧ qs.getD (j + 1) 0 - r < r - qs.getD j 0
              then j + 1 else j) :
    ∀ k, k < qs.length → |qs.getD c 0 - r| ≤ |qs.getD k 0 - r| := by
  have hpw : List.Pairwise (fun a b => a ≤ b) qs := List.chain'_iff_pairwise.mp hsort
  have mono : ∀ a b : ℕ, a ≤ b → b < qs.length → qs.getD a 0 ≤ qs.getD b 0 := by
    intro a b hab hb
    rcases Nat.lt_or_ge a b with h | h
    · have h2 := List.pairwise_iff_getElem.mp hpw a b (lt_of_le_of_lt hab hb) hb h
      rw [List.getD_eq_getElem qs 0 (lt_of_le_of_lt hab hb), List.getD_eq_getElem qs 0 hb]
      exact h2
    · have hab2 : a = b := le_antisymm hab h
      subst hab2
      exact le_refl _
  intro k hk
  by_cases hbr : j + 1 < qs.length
  · have hgt : r < qs.getD (j + 1) 0 := by
      by_contra hle2
      exact hstop ⟨hbr, le_of_not_lt hle2⟩
    by_cases hcond : qs.getD (j + 1) 0 - r < r - qs.getD j 0
    · rw [hc, if_pos ⟨hbr, hcond⟩]
      have hSj : qs.getD j 0 < r := by linarith
      rcases Nat.lt_or_ge k (j + 1) with hk2 | hk2
      · have h1 : qs.getD k 0 ≤ qs.getD j 0 := mono k j (by omega) hj
        rw [abs_of_nonneg (by linarith), abs_of_nonpos (by linarith)]
        linarith
      · have h1 : qs.getD (j + 1) 0 ≤ qs.getD k 0 := mono (j + 1) k hk2 hk
        rw [abs_of_nonneg (by linarith), abs_of_nonneg (by linarith)]
        linarith
    · rw [hc, if_neg (fun hcon => hcond hcon.2)]
      have hnc : r - qs.getD j 0 ≤ qs.getD (j + 1) 0 - r := le_of_not_lt hcond
      rcases Nat.lt_or_ge k (j + 1) with hk2 | hk2
      · rcases hlow with h0 | hle
        · have hkj : k = j := by omega
          subst hkj
          exact le_refl _
        · have h1 : qs.getD k 0 ≤ qs.getD j 0 := mono k j (by omega) hj
          rw [abs_of_nonpos (by linarith), abs_of_nonpos (by linarith)]
          linarith
      · have h1 : qs.getD (j + 1) 0 ≤ qs.getD k 0 := mono (j + 1) k hk2 hk
        rcases le_or_lt (qs.getD j 0) r with hle | hgt2
        · rw [abs_of_nonpos (by linarith), abs_of_nonneg (by linarith)]
          linarith
        · have h2 : qs.getD j 0 ≤ qs.getD k 0 := mono j k (by omega) hk
          rw [abs_of_nonneg (by linarith), abs_of_nonneg (by linarith)]
          linarith
  · rw [hc, if_neg (fun hcon => hbr hcon.1)]
    rcases hlow with h0 | hle
    · have hkj : k = j := by omega
      subst hkj
      exact le_refl _
    · have h1 : qs.getD k 0 ≤ qs.getD j 0 := mono k j (by omega) hj
      rw [abs_of_nonpos (by linarith), abs_of_nonpos (by linarith)]
      linarith

/-- F64-level nearest-bracket property: after the cursor stop, `mtmClosest`
picks a master index whose arc length is at least as close to `relS` as
every other master index, provided the master arc lengths are finite and
sorted. -/
theorem closest_nearest (master : List Trackpoint) (qs : List ℚ)
    (hqs : master.map (fun p => p.S) = qs.map F64.v)
    (hsort : qs.Chain' (fun a b => a ≤ b)) (r : ℚ) (j : ℕ) (hj : j < master.length)
    (hstop : ¬(j + 1 < master.length ∧
      fle ((master.getD (j + 1) default).S) (F64.v r) = true))
    (hinv : j = 0 ∨ fle ((master.getD j default).S) (F64.v r) = true) :
    ∀ k, k < master.length →
      fle (fabs (fsub ((master.getD (mtmClosest master (F64.v r) j) default).S) (F64.v r)))
          (fabs (fsub ((master.getD k default).S) (F64.v r))) = true := by
  have hlen : master.length = qs.length := by
    have h := congrArg List.length hqs
    simpa using h
  have hS := masterS_eq master qs hqs
  have hstop2 : ¬(j + 1 < qs.length ∧ qs.getD (j + 1) 0 ≤ r) := by
    rintro ⟨h1, h2⟩
    have h1m : j + 1 < master.length := by rw [hlen]; exact h1
    refine hstop ⟨h1m, ?_⟩
    rw [hS (j + 1) h1m]
    exact (fle_iff _ _).mpr h2
  have hlow2 : j = 0 ∨ qs.getD j 0 ≤ r := by
    rcases hinv with h | h
    · exact Or.inl h
    · right
      rw [hS j hj] at h
      exact (fle_iff _ _).mp h
  have hceq : mtmClosest master (F64.v r) j
      = if j + 1 < qs.length ∧ qs.getD (j + 1) 0 - r < r - qs.getD j 0
        then j + 1 else j := by
    unfold mtmClosest
    have hsub : ∀ a b : ℚ, fsub (F64.v a) (F64.v b) = F64.v (a - b) := fun a b => rfl
    by_cases hbr : j + 1 < master.length
    · rw [if_pos hbr, hS (j + 1) hbr, hS j hj, hsub, hsub]
      by_cases hcond : qs.getD (j + 1) 0 - r < r - qs.getD j 0
      · rw [if_pos ((flt_iff _ _).mpr hcond), if_pos ⟨(by rw [← hlen]; exact hbr), hcond⟩]
      · rw [if_neg (fun hh => hcond ((flt_iff _ _).mp hh)), if_neg (fun hh => hcond hh.2)]
    · rw [if_neg hbr, if_neg (fun hh => hbr (by rw [hlen]; exact hh.1))]
  have hclt : mtmClosest master (F64.v r) j < master.length := by
    rw [hceq]
    by_cases hbb : j + 1 < qs.length ∧ qs.getD (j + 1) 0 - r < r - qs.getD j 0
    · rw [if_pos hbb]
      rw [hlen]
      exact hbb.1
    · rw [if_neg hbb]
      exact hj
  intro k hk
  have hcore := sorted_nearest_core qs hsort r j (by rw [← hlen]; exact hj) hlow2 hstop2
    (if j + 1 < qs.length ∧ qs.getD (j + 1) 0 - r < r - qs.getD j 0 then j + 1 else j)
    rfl k (by rw [← hlen]; exact hk)
  rw [hS _ hclt, hS k hk, hceq]
  exact (fle_iff _ _).mpr hcore

theorem mtmGo_length (lap master : List Trackpoint) (startIndex : ℤ) (scaleS : F64) :
    ∀ (is : List ℕ) (j : ℕ),
      (mtmGo lap master startIndex scaleS is j).length = is.length := by
  intro is
  induction is with
  | nil => intro j; rfl
  | cons i rest ih =>
    intro j
    simp only [mtmGo, List.length_cons, ih]

/-- Every emission of the main loop maps to a globally nearest master index,
given finite sorted master arc lengths, finite non-decreasing relS values
along the visited indices, and the cursor invariant on entry. -/
theorem mtmGo_nearest (lap master : List Trackpoint) (startIndex : ℤ) (scaleS : F64)
    (qs : List ℚ) (hqs : master.map (fun p => p.S) = qs.map F64.v)
    (hsort : qs.Chain' (fun a b => a ≤ b)) :
    ∀ (is : List ℕ) (j : ℕ), j < master.length →
      (∀ i ∈ is, ∃ r : ℚ, relSof lap scaleS i = F64.v r) →
      List.Pairwise (fun a b => fle a b = true) (is.map (relSof lap scaleS)) →
      (j = 0 ∨ ∀ i ∈ is, fle ((master.getD j default).S) (relSof lap scaleS i) = true) →
      ∀ e ∈ mtmGo lap master startIndex scaleS is j, ∀ k, k < master.length →
        fle (fabs (fsub e.mRelS e.relS))
            (fabs (fsub ((master.getD k default).S) e.relS)) = true := by
  intro is
  induction is with
  | nil =>
    intro j _ _ _ _ e he
    exact absurd he (List.not_mem_nil e)
  | cons i rest ih =>
    intro j hj hfin hpw hinv e he k hk
    obtain ⟨r, hr⟩ := hfin i (List.mem_cons_self i rest)
    have hj2lt : mtmAdvance master (relSof lap scaleS i) master.length j < master.length :=
      mtmAdvance_lt master _ master.length j hj
    have hstop := mtmAdvance_stop master (relSof lap scaleS i) master.length j (by omega)
    have hinv1 : j = 0 ∨ fle ((master.getD j default).S) (relSof lap scaleS i) = true := by
      rcases hinv with h | h
      · exact Or.inl h
      · exact Or.inr (h i (List.mem_cons_self i rest))
    have hinv2 := mtmAdvance_inv master (relSof lap scaleS i) master.length j hinv1
    simp only [mtmGo] at he
    rcases List.mem_cons.mp he with he1 | he2
    · subst he1
      dsimp only
      rw [hr] at hstop hinv2 hj2lt ⊢
      exact closest_nearest master qs hqs hsort r
        (mtmAdvance master (F64.v r) master.length j) hj2lt hstop hinv2 k hk
    · have hpw2 := List.pairwise_cons.mp (by simpa only [List.map_cons] using hpw)
      refine ih (mtmAdvance master (relSof lap scaleS i) master.length j) hj2lt
        (fun i' hi' => hfin i' (List.mem_cons_of_mem i hi')) hpw2.2 ?_ e he2 k hk
      rcases hinv2 with h | h
      · exact Or.inl h
      · right
        intro i' hi'
        exact fle_trans_f _ _ _ h
          (hpw2.1 (relSof lap scaleS i') (List.mem_map_of_mem (relSof lap scaleS) hi'))

/-- **C10**. `MapToMaster` is total on degenerate inputs: an empty lap, an
empty master or a nil callback emits nothing; a scale factor of exactly `0`
is silently replaced by `1`, so the run with scale `0` emits exactly what
the run with scale `1` emits; and on non-degenerate input the callback is
invoked exactly once per lap point, with each emission mapped to a master
index whose arc length is at least as close to the scaled relative arc
length as every other master index (given finite sorted master arc lengths
and finite non-decreasing relS values). -/
theorem C10_theorem (lap master : List Trackpoint) (startIndex : ℤ) (scaleS : F64)
    (hasCallback : Bool) (qs rs : List ℚ)
    (hqs : master.map (fun p => p.S) = qs.map F64.v)
    (hsort : qs.Chain' (fun a b => a ≤ b))
    (hrs : (List.range lap.length).map (relSof lap scaleS) = rs.map F64.v)
    (hrsort : rs.Chain' (fun a b => a ≤ b))
    (hs0 : scaleS ≠ fq 0) :
    ((lap = [] ∨ master = [] ∨ hasCallback = false) →
        MapToMaster lap master startIndex scaleS hasCallback = []) ∧
      MapToMaster lap master startIndex (fq 0) hasCallback
        = MapToMaster lap master startIndex (fq 1) hasCallback ∧
      (lap ≠ [] → master ≠ [] → hasCallback = true →
        (MapToMaster lap master startIndex scaleS hasCallback).length = lap.length) ∧
      ∀ e ∈ MapToMaster lap master startIndex scaleS hasCallback, ∀ k, k < master.length →
        fle (fabs (fsub e.mRelS e.relS))
            (fabs (fsub ((master.getD k default).S) e.relS)) = true := by
  refine ⟨?_, ?_, ?_, ?_⟩
  · intro hd
    have hc : lap.length = 0 ∨ master.length = 0 ∨ hasCallback = false := by
      rcases hd with h | h | h
      · exact Or.inl (by simp [h])
      · exact Or.inr (Or.inl (by simp [h]))
      · exact Or.inr (Or.inr h)
    unfold MapToMaster
    rw [if_pos hc]
  · unfold MapToMaster
    by_cases hd : lap.length = 0 ∨ master.length = 0 ∨ hasCallback = false
    · rw [if_pos hd, if_pos hd]
    · rw [if_neg hd, if_neg hd]
      dsimp only
      rw [if_pos rfl, if_neg (by decide)]
  · intro h1 h2 h3
    have hneg : ¬(lap.length = 0 ∨ master.length = 0 ∨ hasCallback = false) := by
      push_neg
      exact ⟨fun hh => h1 (List.length_eq_zero.mp hh),
        fun hh => h2 (List.length_eq_zero.mp hh), by simp [h3]⟩
    unfold MapToMaster
    rw [if_neg hneg]
    dsimp only
    rw [mtmGo_length]
    exact List.length_range lap.length
  · intro e he k hk
    unfold MapToMaster at he
    by_cases hd : lap.length = 0 ∨ master.length = 0 ∨ hasCallback = false
    · rw [if_pos hd] at he
      exact absurd he (List.not_mem_nil e)
    · rw [if_neg hd] at he
      dsimp only at he
      rw [if_neg hs0] at he
      have h0lt : 0 < master.length := by
        rcases Nat.eq_zero_or_pos master.length with h | h
        · exact absurd (Or.inr (Or.inl h)) hd
        · exact h
      have hlen2 : lap.length = rs.length := by
        have h := congrArg List.length hrs
        simpa using h
      have hfin : ∀ i ∈ List.range lap.length, ∃ r : ℚ, relSof lap scaleS i = F64.v r := by
        intro i hi
        have hi2 : i < lap.length := List.mem_range.mp hi
        have hkm : i < ((List.range lap.length).map (relSof lap scaleS)).length := by
          simpa using hi2
        have h2 := List.getElem_of_eq hrs hkm
        rw [List.getElem_map, List.getElem_map, List.getElem_range] at h2
        exact ⟨rs.getD i 0, by rw [List.getD_eq_getElem rs 0 (hlen2 ▸ hi2)]; exact h2⟩
      have hpw : List.Pairwise (fun a b => fle a b = true)
          ((List.range lap.length).map (relSof lap scaleS)) := by
        rw [hrs, List.pairwise_map]
        exact (List.chain'_iff_pairwise.mp hrsort).imp (fun hab => (fle_iff _ _).mpr hab)
      exact mtmGo_nearest lap master startIndex scaleS qs hqs hsort
        (List.range lap.length) 0 h0lt hfin hpw (Or.inl rfl) e he k hk

/-- Concrete lap for evaluating `MapToMaster`: relS values 0, 3, 7. -/
def c10lap : List Trackpoint :=
  [⟨fq 0, fq 0, fq 0, fq 0⟩, ⟨fq 3, fq 1, fq 0, fq 0⟩, ⟨fq 7, fq 2, fq 0, fq 0⟩]

/-- Concrete master for evaluating `MapToMaster`: arc lengths 0, 4, 6. -/
def c10master : List Trackpoint :=
  [⟨fq 0, fq 0, fq 0, fq 0⟩, ⟨fq 4, fq 1, fq 1, fq 0⟩, ⟨fq 6, fq 2, fq 2, fq 0⟩]

theorem C10_witness :
    (MapToMaster c10lap c10master 0 (fq 1) true).length = c10lap.length ∧
    MapToMaster c10lap c10master 0 (fq 0) true
      = MapToMaster c10lap c10master 0 (fq 1) true := by
  have h := C10_theorem c10lap c10master 0 (fq 1) true [0, 4, 6] [0, 3, 7]
    (by decide) (by norm_num [List.chain'_cons]) (by decide)
    (by norm_num [List.chain'_cons]) (by decide)
  exact ⟨h.2.2.1 (by decide) (by decide) rfl, h.2.1⟩

/-- Go unary minus on float64. -/
def fneg : F64 → F64
  | F64.v a => F64.v (-a)
  | F64.nf => F64.nf

/-- Embedded `track.EventThresholds` (`eventdetection.go` lines 9-24).
`TractionThrottle` is stored as a float64 in Go but only ever used through
`int(th.TractionThrottle)`, so it is embedded as the integer it converts to. -/
structure EventThresholds where
  StopSpeed : F64
  CrashDecel : F64
  CrashMinPreSpeed : F64
  CollisionAccelMag : F64
  CollisionSpeedDrop : F64
  ResetMinDuration : F64
  ResetVelEpsilon : F64
  DedupeWindow : F64
  RumbleThreshold : F64
  PuddleThreshold : F64
  DriftSlipAngle : F64
  DriftMinSpeed : F64
  TractionSlip : F64
  TractionThrottle : ℤ

/-- Embedded `track.defaultEventThresholds` (`eventdetection.go` lines 26-43). -/
def defaultEventThresholds : EventThresholds where
  StopSpeed := fq 1
  CrashDecel := fq (-8)
  CrashMinPreSpeed := fq 5
  CollisionAccelMag := fq 12
  CollisionSpeedDrop := fq 2
  ResetMinDuration := fq (3/2)
  ResetVelEpsilon := fq (1/4)
  DedupeWindow := fq 1
  RumbleThreshold := fq (4/5)
  PuddleThreshold := fq (1/2)
  DriftSlipAngle := fq (3/10)
  DriftMinSpeed := fq 8
  TractionSlip := fq (2/5)
  TractionThrottle := 120

/-- Embedded `track.speedMPS` (`eventdetection.go` lines 216-224). -/
def speedMPS (s : Sample) : F64 :=
  if flt (fq 0) s.Speed = true then s.Speed
  else if flt (fq 0) s.SpeedMPS = true then s.SpeedMPS
  else fq 0

/-- Embedded `track.okToEmit` (`eventdetection.go` lines 208-213): a stored
last-emission time of exactly `0` means "no previous event". -/
def okToEmit (lastTime now window : F64) : Bool :=
  if lastTime = fq 0 then true else fle window (fsub now lastTime)

/-- Go map update `lastOfType[k] = v` on the `string -> float64` map. -/
def setLast (f : String → F64) (k : String) (v : F64) : String → F64 :=
  fun x => if x = k then v else f x

/-- Mutable state of the `DetectEvents` loop (`eventdetection.go` lines
48-62): collected events, the per-type last-emission map, and the reset /
race-state / drift / traction / position trackers. -/
structure DState where
  events : List Event
  lastOfType : String → F64
  resetStart : ℤ
  resetAccum : F64
  seenOn : Bool
  driftActive : Bool
  tractionActive : Bool
  lastPos : ℤ

/-- Shared emission sequence of every event site: check `okToEmit` against
the per-type map at `dedupeTime`, then append the event and store
`dedupeTime` in the map.  Every site has `evTime = dedupeTime = cur.Time`
except the reset site, which stamps the event with
`samples[resetStart].Time` while deduping on `cur.Time`. -/
def tryEmit (st : DState) (window : F64) (typ : String) (idx : ℤ)
    (evTime dedupeTime : F64) (note : String) : DState :=
  if okToEmit (st.lastOfType typ) dedupeTime window = true then
    { st with events := st.events ++ [{ Index := idx, Time := evTime, Typ := typ, Note := note }],
              lastOfType := setLast st.lastOfType typ dedupeTime }
  else st

/-- Note string of the position-change events. -/
def posNote (a b : ℤ) : String :=
  "position " ++ toString a ++ " → " ++ toString b

/-- Position gain/loss and pole-change block (`eventdetection.go` lines
102-128). -/
def posBlock (th : EventThresholds) (i : ℕ) (cur : Sample) (st : DState) : DState :=
  if 0 < st.lastPos ∧ 0 < cur.RacePosition ∧ cur.RacePosition ≠ st.lastPos then
    let evType := if cur.RacePosition - st.lastPos < 0 then "position_gain" else "position_loss"
    let note := posNote st.lastPos cur.RacePosition
    let stA := tryEmit st th.DedupeWindow evType (i : ℤ) cur.Time cur.Time note
    let stB :=
      if st.lastPos = 1 ∧ 1 < cur.RacePosition then
        tryEmit stA th.DedupeWindow "pole_loss" (i : ℤ) cur.Time cur.Time note
      else if 1 < st.lastPos ∧ cur.RacePosition = 1 then
        tryEmit stA th.DedupeWindow "pole_gain" (i : ℤ) cur.Time cur.Time note
      else stA
    { stB with lastPos := cur.RacePosition }
  else st

/-- Reset-detection block (`eventdetection.go` lines 130-148): sustained
near-zero movement; the emitted event is stamped with the reset-start
sample's time while the dedupe map stores the current sample's time. -/
def resetBlock (th : EventThresholds) (samples : List Sample) (i : ℕ) (cur : Sample)
    (dt velMag speedCur : F64) (st : DState) : DState :=
  if flt velMag th.ResetVelEpsilon = true ∧ flt speedCur th.StopSpeed = true then
    let stA := if st.resetStart = -1 then { st with resetStart := (i : ℤ), resetAccum := fq 0 }
               else st
    let stB := { stA with resetAccum := fadd stA.resetAccum dt }
    if fle th.ResetMinDuration stB.resetAccum = true then
      let stC := tryEmit stB th.DedupeWindow "reset" stB.resetStart
        ((samples.getD stB.resetStart.toNat default).Time) cur.Time "near-zero movement"
      { stC with resetStart := -1, resetAccum := fq 0 }
    else stB
  else { st with resetStart := -1, resetAccum := fq 0 }

/-- Crash block (`eventdetection.go` lines 150-157): large decel to near
stop. -/
def crashBlock (th : EventThresholds) (i : ℕ) (cur : Sample)
    (speedPrev speedCur decel : F64) (st : DState) : DState :=
  if flt th.CrashMinPreSpeed speedPrev = true ∧ flt speedCur th.StopSpeed = true ∧
      fle decel th.CrashDecel = true then
    tryEmit st th.DedupeWindow "crash" (i : ℤ) cur.Time cur.Time "hard stop"
  else st

/-- Collision block (`eventdetection.go` lines 159-165): accel spike plus
speed drop but not full stop. -/
def collisionBlock (th : EventThresholds) (i : ℕ) (cur : Sample)
    (accelMag dSpeed speedCur : F64) (st : DState) : DState :=
  if fle th.CollisionAccelMag accelMag = true ∧ flt dSpeed (fneg th.CollisionSpeedDrop) = true ∧
      fle th.StopSpeed speedCur = true then
    tryEmit st th.DedupeWindow "collision" (i : ℤ) cur.Time cur.Time "accel spike + speed drop"
  else st

/-- Rumble-strip block (`eventdetection.go` lines 167-172). -/
def rumbleBlock (th : EventThresholds) (i : ℕ) (cur : Sample) (st : DState) : DState :=
  let rumble := fadd (fadd (fadd cur.WheelOnRumbleFL cur.WheelOnRumbleFR)
    cur.WheelOnRumbleRL) cur.WheelOnRumbleRR
  if fle th.RumbleThreshold rumble = true then
    tryEmit st th.DedupeWindow "rumble" (i : ℤ) cur.Time cur.Time "wheel on rumble"
  else st

/-- Puddle block (`eventdetection.go` lines 174-179). -/
def puddleBlock (th : EventThresholds) (i : ℕ) (cur : Sample) (st : DState) : DState :=
  let puddle := fadd (fadd (fadd cur.WheelInPuddleFL cur.WheelInPuddleFR)
    cur.WheelInPuddleRL) cur.WheelInPuddleRR
  if fle th.PuddleThreshold puddle = true then
    tryEmit st th.DedupeWindow "puddle" (i : ℤ) cur.Time cur.Time "wheel in puddle"
  else st

/-- Drift block (`eventdetection.go` lines 181-192): sustained high slip
angles at speed, edge-triggered through `driftActive`. -/
def driftBlock (th : EventThresholds) (i : ℕ) (cur : Sample) (speedCur : F64)
    (st : DState) : DState :=
  let slipAng := fdiv (fadd (fadd (fadd (fabs cur.TireSlipAngleFL) (fabs cur.TireSlipAngleFR))
    (fabs cur.TireSlipAngleRL)) (fabs cur.TireSlipAngleRR)) (fq 4)
  if fle th.DriftSlipAngle slipAng = true ∧ fle th.DriftMinSpeed speedCur = true then
    let stD := if st.driftActive = false then
        tryEmit st th.DedupeWindow "drift" (i : ℤ) cur.Time cur.Time "high slip angle"
      else st
    { stD with driftActive := true }
  else { st with driftActive := false }

/-- Traction-loss block (`eventdetection.go` lines 194-205): high combined
slip under throttle, edge-triggered through `tractionActive`. -/
def tractionBlock (th : EventThresholds) (i : ℕ) (cur : Sample) (speedCur : F64)
    (st : DState) : DState :=
  let avgSlip := fdiv (fadd (fadd (fadd cur.TireCombinedSlipFL cur.TireCombinedSlipFR)
    cur.TireCombinedSlipRL) cur.TireCombinedSlipRR) (fq 4)
  if fle th.TractionSlip avgSlip = true ∧ th.TractionThrottle ≤ cur.ThrottleRaw ∧
      fle th.StopSpeed speedCur = true then
    let stT := if st.tractionActive = false then
        tryEmit st th.DedupeWindow "traction" (i : ℤ) cur.Time cur.Time "traction loss"
      else st
    { stT with tractionActive := true }
  else { st with tractionActive := false }

/-- One body iteration of the `DetectEvents` loop (after the race-state
checks): derived quantities, then the nine event sites in source order. -/
def detectStep (m : NumModel) (th : EventThresholds) (samples : List Sample)
    (i : ℕ) (st : DState) : DState :=
  let prev := samples.getD (i - 1) default
  let cur := samples.getD i default
  let st2 := if 0 < prev.RacePosition then { st with lastPos := prev.RacePosition } else st
  let dt0 := fsub cur.Time prev.Time
  let dt := if fle dt0 (fq 0) = true ∨ flt (fq 1) dt0 = true ∨ fisNF dt0 = true then fq 0
            else dt0
  let speedPrev := speedMPS prev
  let speedCur := speedMPS cur
  let dSpeed := fsub speedCur speedPrev
  let decel := if flt (fq 0) dt = true then fdiv dSpeed dt else fq 0
  let accelMag := m.sqrt (fadd (fadd (fmul cur.AccelX cur.AccelX)
    (fmul cur.AccelY cur.AccelY)) (fmul cur.AccelZ cur.AccelZ))
  let velMag := m.hypot cur.VelX cur.VelZ
  tractionBlock th i cur speedCur
    (driftBlock th i cur speedCur
      (puddleBlock th i cur
        (rumbleBlock th i cur
          (collisionBlock th i cur accelMag dSpeed speedCur
            (crashBlock th i cur speedPrev speedCur decel
              (resetBlock th samples i cur dt velMag speedCur
                (posBlock th i cur st2)))))))

/-- The `DetectEvents` loop over sample indices `1 .. len-1`, with the
pre-race skip (`continue`), the post-race `break` and the off-transition
skip (`eventdetection.go` lines 64-79). -/
def detectGo (m : NumModel) (th : EventThresholds) (samples : List Sample) :
    List ℕ → DState → DState
  | [], st => st
  | i :: rest, st =>
    let cur := samples.getD i default
    let prev := samples.getD (i - 1) default
    if cur.IsRaceOn = 0 ∧ st.seenOn = false then detectGo m th samples rest st
    else if cur.IsRaceOn = 0 then st
    else
      let st1 := { st with seenOn := true }
      if prev.IsRaceOn = 0 then detectGo m th samples rest st1
      else detectGo m th samples rest (detectStep m th samples i st1)

/-- Embedded `track.DetectEvents` (`eventdetection.go` lines 45-206). -/
def DetectEvents (m : NumModel) (samples : List Sample) : List Event :=
  if samples.length < 2 then []
  else (detectGo m defaultEventThresholds samples ((List.range samples.length).drop 1)
    { events := [], lastOfType := fun _ => fq 0, resetStart := -1, resetAccum := fq 0,
      seenOn := false, driftActive := false, tractionActive := false, lastPos := -1 }).events

/-- Times of the events of one type, in emission order. -/
def typedTimes (τ : String) (evs : List Event) : List F64 :=
  (evs.filter (fun e => decide (e.Typ = τ))).map (fun e => e.Time)

/-- Number of events of one type. -/
def countType (τ : String) (evs : List Event) : ℕ :=
  (evs.filter (fun e => decide (e.Typ = τ))).length

/-- Dedupe gap between two successive same-type event times: the earlier one
is exactly `0` (the `okToEmit` no-previous-event sentinel) or the times are
at least `w` apart. -/
def gapOK (w : F64) (a b : F64) : Prop :=
  a = fq 0 ∨ fle w (fsub b a) = true

/-- Loop invariant of the dedupe argument for one event type: the emitted
times of that type are chained by `gapOK`, and the per-type map holds the
last emitted time of that type (or `0` if none). -/
def DInvP (τ : String) (w : F64) (st : DState) : Prop :=
  List.Chain' (gapOK w) (typedTimes τ st.events) ∧
  st.lastOfType τ = (typedTimes τ st.events).getLastD (fq 0)

theorem typedTimes_append_mk (τ : String) (evs : List Event) (idx : ℤ) (t : F64)
    (typ note : String) :
    typedTimes τ (evs ++ [{ Index := idx, Time := t, Typ := typ, Note := note }]) =
      typedTimes τ evs ++ (if typ = τ then [t] else []) := by
  unfold typedTimes
  rw [List.filter_append, List.map_append]
  by_cases h : typ = τ
  · rw [if_pos h]
    congr 1
    simp [h]
  · rw [if_neg h]
    congr 1
    simp [h]

/-- `tryEmit` with equal event and dedupe time preserves the invariant for
every type (the emitted type included, thanks to `okToEmit`). -/
theorem tryEmit_inv_same (τ : String) (w : F64) (st : DState) (typ : String)
    (idx : ℤ) (t : F64) (note : String) (h : DInvP τ w st) :
    DInvP τ w (tryEmit st w typ idx t t note) := by
  unfold tryEmit
  by_cases hok : okToEmit (st.lastOfType typ) t w = true
  · rw [if_pos hok]
    obtain ⟨hch, hlast⟩ := h
    by_cases hty : typ = τ
    · subst hty
      constructor
      · show List.Chain' (gapOK w) (typedTimes typ (st.events ++ _))
        rw [typedTimes_append_mk, if_pos rfl, List.chain'_append]
        refine ⟨hch, List.chain'_singleton _, ?_⟩
        intro x hx y hy
        simp only [List.head?_cons, Option.mem_def, Option.some.injEq] at hy
        subst hy
        have hxv : (typedTimes typ st.events).getLastD (fq 0) = x := by
          rw [List.getLastD_eq_getLast?]
          simp only [Option.mem_def] at hx
          rw [hx]
          rfl
        unfold okToEmit at hok
        rw [hlast, hxv] at hok
        by_cases h0 : x = fq 0
        · exact Or.inl h0
        · rw [if_neg h0] at hok
          exact Or.inr hok
      · show setLast st.lastOfType typ t typ = _
        unfold setLast
        rw [if_pos rfl, typedTimes_append_mk, if_pos rfl, List.getLastD_eq_getLast?,
          List.getLast?_concat]
        rfl
    · constructor
      · show List.Chain' (gapOK w) (typedTimes τ (st.events ++ _))
        rw [typedTimes_append_mk, if_neg hty, List.append_nil]
        exact hch
      · show setLast st.lastOfType typ t τ = _
        unfold setLast
        rw [if_neg (fun hh => hty hh.symm), typedTimes_append_mk, if_neg hty,
          List.append_nil]
        exact hlast
  · rw [if_neg hok]
    exact h

/-- `tryEmit` of a different type preserves the invariant regardless of its
window and of its (possibly differing) event and dedupe times. -/
theorem tryEmit_inv_ne (τ : String) (w w2 : F64) (st : DState) (typ : String)
    (idx : ℤ) (t1 t2 : F64) (note : String) (hty : typ ≠ τ) (h : DInvP τ w st) :
    DInvP τ w (tryEmit st w2 typ idx t1 t2 note) := by
  unfold tryEmit
  by_cases hok : okToEmit (st.lastOfType typ) t2 w2 = true
  · rw [if_pos hok]
    obtain ⟨hch, hlast⟩ := h
    constructor
    · show List.Chain' (gapOK w) (typedTimes τ (st.events ++ _))
      rw [typedTimes_append_mk, if_neg hty, List.append_nil]
      exact hch
    · show setLast st.lastOfType typ t2 τ = _
      unfold setLast
      rw [if_neg (fun hh => hty hh.symm), typedTimes_append_mk, if_neg hty,
        List.append_nil]
      exact hlast
  · rw [if_neg hok]
    exact h

theorem posBlock_inv (τ : String) (th : EventThresholds) (i : ℕ) (cur : Sample)
    (st : DState) (h : DInvP τ th.DedupeWindow st) :
    DInvP τ th.DedupeWindow (posBlock th i cur st) := by
  unfold posBlock
  dsimp only
  by_cases hc1 : 0 < st.lastPos ∧ 0 < cur.RacePosition ∧ cur.RacePosition ≠ st.lastPos
  · rw [if_pos hc1]
    have h1 := tryEmit_inv_same τ th.DedupeWindow st
      (if cur.RacePosition - st.lastPos < 0 then "position_gain" else "position_loss")
      (i : ℤ) cur.Time (posNote st.lastPos cur.RacePosition) h
    by_cases hc2 : st.lastPos = 1 ∧ 1 < cur.RacePosition
    · rw [if_pos hc2]
      exact tryEmit_inv_same τ th.DedupeWindow _ _ _ _ _ h1
    · rw [if_neg hc2]
      by_cases hc3 : 1 < st.lastPos ∧ cur.RacePosition = 1
      · rw [if_pos hc3]
        exact tryEmit_inv_same τ th.DedupeWindow _ _ _ _ _ h1
      · rw [if_neg hc3]
        exact h1
  · rw [if_neg hc1]
    exact h

theorem resetBlock_inv (τ : String) (hτ : τ ≠ "reset") (th : EventThresholds)
    (samples : List Sample) (i : ℕ) (cur : Sample) (dt velMag speedCur : F64)
    (st : DState) (h : DInvP τ th.DedupeWindow st) :
    DInvP τ th.DedupeWindow (resetBlock th samples i cur dt velMag speedCur st) := by
  unfold resetBlock
  dsimp only
  by_cases hc1 : flt velMag th.ResetVelEpsilon = true ∧ flt speedCur th.StopSpeed = true
  · rw [if_pos hc1]
    by_cases hr : st.resetStart = -1
    · rw [if_pos hr]
      by_cases hd : fle th.ResetMinDuration
          (fadd ({ st with resetStart := (i : ℤ), resetAccum := fq 0 } : DState).resetAccum dt)
          = true
      · rw [if_pos hd]
        exact tryEmit_inv_ne τ th.DedupeWindow th.DedupeWindow _ "reset" _ _ _ _
          (fun hh => hτ hh.symm) h
      · rw [if_neg hd]
        exact h
    · rw [if_neg hr]
      by_cases hd : fle th.ResetMinDuration (fadd st.resetAccum dt) = true
      · rw [if_pos hd]
        exact tryEmit_inv_ne τ th.DedupeWindow th.DedupeWindow _ "reset" _ _ _ _
          (fun hh => hτ hh.symm) h
      · rw [if_neg hd]
        exact h
  · rw [if_neg hc1]
    exact h

theorem crashBlock_inv (τ : String) (th : EventThresholds) (i : ℕ) (cur : Sample)
    (speedPrev speedCur decel : F64) (st : DState) (h : DInvP τ th.DedupeWindow st) :
    DInvP τ th.DedupeWindow (crashBlock th i cur speedPrev speedCur decel st) := by
  unfold crashBlock
  split
  · exact tryEmit_inv_same τ th.DedupeWindow st "crash" (i : ℤ) cur.Time "hard stop" h
  · exact h

theorem collisionBlock_inv (τ : String) (th : EventThresholds) (i : ℕ) (cur : Sample)
    (accelMag dSpeed speedCur : F64) (st : DState) (h : DInvP τ th.DedupeWindow st) :
    DInvP τ th.DedupeWindow (collisionBlock th i cur accelMag dSpeed speedCur st) := by
  unfold collisionBlock
  split
  · exact tryEmit_inv_same τ th.DedupeWindow st "collision" (i : ℤ) cur.Time
      "accel spike + speed drop" h
  · exact h

theorem rumbleBlock_inv (τ : String) (th : EventThresholds) (i : ℕ) (cur : Sample)
    (st : DState) (h : DInvP τ th.DedupeWindow st) :
    DInvP τ th.DedupeWindow (rumbleBlock th i cur st) := by
  unfold rumbleBlock
  dsimp only
  split
  · exact tryEmit_inv_same τ th.DedupeWindow st "rumble" (i : ℤ) cur.Time
      "wheel on rumble" h
  · exact h

theorem puddleBlock_inv (τ : String) (th : EventThresholds) (i : ℕ) (cur : Sample)
    (st : DState) (h : DInvP τ th.DedupeWindow st) :
    DInvP τ th.DedupeWindow (puddleBlock th i cur st) := by
  unfold puddleBlock
  dsimp only
  split
  · exact tryEmit_inv_same τ th.DedupeWindow st "puddle" (i : ℤ) cur.Time
      "wheel in puddle" h
  · exact h

theorem driftBlock_inv (τ : String) (th : EventThresholds) (i : ℕ) (cur : Sample)
    (speedCur : F64) (st : DState) (h : DInvP τ th.DedupeWindow st) :
    DInvP τ th.DedupeWindow (driftBlock th i cur speedCur st) := by
  unfold driftBlock
  dsimp only
  split
  · by_cases ha : st.driftActive = false
    · rw [if_pos ha]
      exact tryEmit_inv_same τ th.DedupeWindow st "drift" (i : ℤ) cur.Time
        "high slip angle" h
    · rw [if_neg ha]
      exact h
  · exact h

theorem tractionBlock_inv (τ : String) (th : EventThresholds) (i : ℕ) (cur : Sample)
    (speedCur : F64) (st : DState) (h : DInvP τ th.DedupeWindow st) :
    DInvP τ th.DedupeWindow (tractionBlock th i cur speedCur st) := by
  unfold tractionBlock
  dsimp only
  split
  · by_cases ha : st.tractionActive = false
    · rw [if_pos ha]
      exact tryEmit_inv_same τ th.DedupeWindow st "traction" (i : ℤ) cur.Time
        "traction loss" h
    · rw [if_neg ha]
      exact h
  · exact h

theorem detectStep_inv (τ : String) (hτ : τ ≠ "reset") (m : NumModel)
    (th : EventThresholds) (samples : List Sample) (i : ℕ) (st : DState)
    (h : DInvP τ th.DedupeWindow st) :
    DInvP τ th.DedupeWindow (detectStep m th samples i st) := by
  unfold detectStep
  dsimp only
  by_cases hp : 0 < (samples.getD (i - 1) default).RacePosition
  · rw [if_pos hp]
    exact tractionBlock_inv τ th i _ _ _
      (driftBlock_inv τ th i _ _ _
        (puddleBlock_inv τ th i _ _
          (rumbleBlock_inv τ th i _ _
            (collisionBlock_inv τ th i _ _ _ _ _
              (crashBlock_inv τ th i _ _ _ _ _
                (resetBlock_inv τ hτ th samples i _ _ _ _ _
                  (posBlock_inv τ th i _ _ h)))))))
  · rw [if_neg hp]
    exact tractionBlock_inv τ th i _ _ _
      (driftBlock_inv τ th i _ _ _
        (puddleBlock_inv τ th i _ _
          (rumbleBlock_inv τ th i _ _
            (collisionBlock_inv τ th i _ _ _ _ _
              (crashBlock_inv τ th i _ _ _ _ _
                (resetBlock_inv τ hτ th samples i _ _ _ _ _
                  (posBlock_inv τ th i _ _ h)))))))

theorem detectGo_inv (τ : String) (hτ : τ ≠ "reset") (m : NumModel)
    (th : EventThresholds) (samples : List Sample) :
    ∀ (is : List ℕ) (st : DState), DInvP τ th.DedupeWindow st →
      DInvP τ th.DedupeWindow (detectGo m th samples is st) := by
  intro is
  induction is with
  | nil => intro st h; exact h
  | cons i rest ih =>
    intro st h
    simp only [detectGo]
    by_cases h1 : (samples.getD i default).IsRaceOn = 0 ∧ st.seenOn = false
    · rw [if_pos h1]
      exact ih st h
    · rw [if_neg h1]
      by_cases h2 : (samples.getD i default).IsRaceOn = 0
      · rw [if_pos h2]
        exact h
      · rw [if_neg h2]
        by_cases h3 : (samples.getD (i - 1) default).IsRaceOn = 0
        · rw [if_pos h3]
          exact ih _ h
        · rw [if_neg h3]
          exact ih _ (detectStep_inv τ hτ m th samples i _ h)

/-- Reset scenario: a car standing still from t=1 on.  The accumulator
first reaches 1.5s at t=1.5 (reset stamped t=1), restarts at t=1.6 and
reaches 1.5s again at t=3.0 (reset stamped t=1.6). -/
def c4reset : List Sample :=
  [{ Time := fq 0, Speed := fq 5, IsRaceOn := 1 },
   { Time := fq 1, Speed := fq 0, IsRaceOn := 1 },
   { Time := fq (3/2), Speed := fq 0, IsRaceOn := 1 },
   { Time := fq (8/5), Speed := fq 0, IsRaceOn := 1 },
   { Time := fq (12/5), Speed := fq 0, IsRaceOn := 1 },
   { Time := fq 3, Speed := fq 0, IsRaceOn := 1 }]

/-- Two crash-triggering transitions 0.4s apart (at t=1.0 and t=1.4):
within the 1s dedupe window. -/
def c4crashA : List Sample :=
  [{ Time := fq (1/2), Speed := fq 10, VelX := fq 10, IsRaceOn := 1 },
   { Time := fq 1, Speed := fq (1/2), VelX := fq (1/2), IsRaceOn := 1 },
   { Time := fq (6/5), Speed := fq 10, VelX := fq 10, IsRaceOn := 1 },
   { Time := fq (7/5), Speed := fq (1/2), VelX := fq (1/2), IsRaceOn := 1 }]

/-- The same two crash-triggering transitions 1.5s apart (at t=1.0 and
t=2.5): beyond the 1s dedupe window. -/
def c4crashB : List Sample :=
  [{ Time := fq (1/2), Speed := fq 10, VelX := fq 10, IsRaceOn := 1 },
   { Time := fq 1, Speed := fq (1/2), VelX := fq (1/2), IsRaceOn := 1 },
   { Time := fq (3/2), Speed := fq 10, VelX := fq 10, IsRaceOn := 1 },
   { Time := fq (5/2), Speed := fq (1/2), VelX := fq (1/2), IsRaceOn := 1 }]

/-- **C4** (amended).  For every event type other than `"reset"`, successive
events of that type are either at least the 1s dedupe window apart or the
earlier of the two is at time exactly `0` (`okToEmit` treats a stored time
of `0` as "no previous event"); in particular two crash-triggering
transitions 0.4s apart yield exactly one crash event and the same two
transitions 1.5s apart yield two.  Reset events are excluded: they are
deduped on the current sample time but stamped with the earlier
reset-start time, so their stamped times can be closer than the window
(see the counterexample). -/
theorem C4_theorem (m : NumModel) (samples : List Sample) (τ : String)
    (hτ : τ ≠ "reset") :
    List.Chain' (gapOK (fq 1)) (typedTimes τ (DetectEvents m samples)) ∧
    countType "crash" (DetectEvents cmodel c4crashA) = 1 ∧
    countType "crash" (DetectEvents cmodel c4crashB) = 2 := by
  refine ⟨?_, by decide, by decide⟩
  unfold DetectEvents
  by_cases hlen : samples.length < 2
  · rw [if_pos hlen]
    exact List.chain'_nil
  · rw [if_neg hlen]
    have h0 : DInvP τ defaultEventThresholds.DedupeWindow
        { events := [], lastOfType := fun _ => fq 0, resetStart := -1, resetAccum := fq 0,
          seenOn := false, driftActive := false, tractionActive := false,
          lastPos := -1 } :=
      ⟨List.chain'_nil, rfl⟩
    exact (detectGo_inv τ hτ m defaultEventThresholds samples
      ((List.range samples.length).drop 1) _ h0).1

/-- **C4 counterexample**.  On the standing-still scenario the detector
emits two `"reset"` events stamped t=1 and t=1.6, only 0.6s apart — less
than the 1s dedupe window — because the dedupe map stores the current
sample time (1.5) while the event is stamped with the reset-start time. -/
theorem C4_counterexample :
    typedTimes "reset" (DetectEvents cmodel c4reset) = [fq 1, fq (8/5)] ∧
    fle (fq 1) (fsub (fq (8/5)) (fq 1)) = false := by
  constructor <;> decide

theorem C4_witness :
    List.Chain' (gapOK (fq 1)) (typedTimes "crash" (DetectEvents cmodel c4crashB)) :=
  (C4_theorem cmodel c4crashB "crash" (by decide)).1

/-- Embedded `track.MappedPoint` (`eventdetection.go` lines 226-233). -/
structure MappedPoint where
  Time : F64 := fq 0
  Lap : ℤ := 0
  RelS : F64 := fq 0
  MasterX : F64 := fq 0
  MasterY : F64 := fq 0
  deriving DecidableEq, Repr

instance : Inhabited MappedPoint := ⟨{}⟩

/-- Embedded `track.OvertakeEvent` (`eventdetection.go` lines 235-243). -/
structure OvertakeEvent where
  Source : String := ""
  Target : String := ""
  Time : F64 := fq 0
  Lap : ℤ := 0
  RelS : F64 := fq 0
  MasterX : F64 := fq 0
  MasterY : F64 := fq 0
  deriving DecidableEq, Repr

/-- Loop of `track.lapLengthsFromMapped` (`eventdetection.go` lines
362-370): Go's `map[int]float64` with its implicit `0` default is embedded
as a function. -/
def lapLengthsGo : List MappedPoint → (ℤ → F64) → (ℤ → F64)
  | [], m => m
  | p :: rest, m =>
    lapLengthsGo rest
      (if flt (m p.Lap) p.RelS = true then fun k => if k = p.Lap then p.RelS else m k
       else m)

/-- Embedded `track.lapLengthsFromMapped`. -/
def lapLengthsFromMapped (points : List MappedPoint) : ℤ → F64 :=
  lapLengthsGo points (fun _ => fq 0)

/-- Embedded `track.progressMapped` (`eventdetection.go` lines 372-378). -/
def progressMapped (p : MappedPoint) (lapLen : ℤ → F64) : F64 :=
  let lenLap := if fle (lapLen p.Lap) (fq 0) = true then fq 1 else lapLen p.Lap
  fadd (fq ((p.Lap - 1 : ℤ) : ℚ)) (fdiv p.RelS lenLap)

/-- Binary-search loop of `track.pointAtTimeMapped` (`eventdetection.go`
lines 338-346), with explicit fuel (`points.length` steps always suffice
since `hi - lo` shrinks every iteration). -/
def patSearch (points : List MappedPoint) (t : F64) : ℕ → ℕ → ℕ → ℕ × ℕ
  | 0, lo, hi => (lo, hi)
  | fuel + 1, lo, hi =>
    if 1 < hi - lo then
      let mid := (hi + lo) / 2
      if fle ((points.getD mid default).Time) t = true then
        patSearch points t fuel mid hi
      else patSearch points t fuel lo mid
    else (lo, hi)

/-- Embedded `track.pointAtTimeMapped` (`eventdetection.go` lines 328-360);
the Go `(MappedPoint, bool)` result is embedded as an `Option`. -/
def pointAtTimeMapped (points : List MappedPoint) (t : F64) : Option MappedPoint :=
  if points.length = 0 then none
  else if fle t ((points.getD 0 default).Time) = true then some (points.getD 0 default)
  else if fle ((points.getD (points.length - 1) default).Time) t = true then
    some (points.getD (points.length - 1) default)
  else
    let lh := patSearch points t points.length 0 (points.length - 1)
    let p1 := points.getD lh.1 default
    let p2 := points.getD lh.2 default
    let span := fsub p2.Time p1.Time
    if fle span (fq 0) = true then some p1
    else
      let alpha := fdiv (fsub t p1.Time) span
      some { Time := t, Lap := p1.Lap,
             RelS := fadd p1.RelS (fmul (fsub p2.RelS p1.RelS) alpha),
             MasterX := fadd p1.MasterX (fmul (fsub p2.MasterX p1.MasterX) alpha),
             MasterY := fadd p1.MasterY (fmul (fsub p2.MasterY p1.MasterY) alpha) }

/-- Sign of `progA - progB` as computed by `detectPair`
(`eventdetection.go` lines 289-295): `1` if `progA > progB`, `-1` if
`progB > progA`, else `0`. -/
def signF (progA progB : F64) : ℤ :=
  if flt progB progA = true then 1
  else if flt progA progB = true then -1 else 0

/-- Main loop of `track.detectPair` (`eventdetection.go` lines 273-325),
with explicit fuel (each iteration advances one pointer, so
`len(aPts) + len(bPts)` steps suffice).  A conditional Go `append` is
rendered as appending a conditional singleton. -/
def pairGo (aName bName : String) (aPts bPts : List MappedPoint)
    (lapA lapB : ℤ → F64) (maxT : F64) :
    ℕ → ℕ → ℕ → ℤ → List OvertakeEvent → List OvertakeEvent
  | 0, _, _, _, out => out
  | fuel + 1, ia, ib, prevAhead, out =>
    if ia < aPts.length ∧ ib < bPts.length then
      let ta := (aPts.getD ia default).Time
      let tb := (bPts.getD ib default).Time
      let t := if flt tb ta = true then tb else ta
      if flt maxT t = true then out
      else
        let opa := pointAtTimeMapped aPts t
        let opb := pointAtTimeMapped bPts t
        if opa = none ∨ opb = none then out
        else
          let pa := opa.getD default
          let pb := opb.getD default
          let ahead := signF (progressMapped pa lapA) (progressMapped pb lapB)
          let out2 := out ++
            (if prevAhead ≠ 0 ∧ ahead ≠ 0 ∧ ahead ≠ prevAhead then
              if 0 < ahead then
                [{ Source := aName, Target := bName, Time := t, Lap := pa.Lap,
                   RelS := pa.RelS, MasterX := pa.MasterX, MasterY := pa.MasterY }]
              else
                [{ Source := bName, Target := aName, Time := t, Lap := pb.Lap,
                   RelS := pb.RelS, MasterX := pb.MasterX, MasterY := pb.MasterY }]
            else [])
          if ia + 1 < aPts.length ∧ (bPts.length ≤ ib + 1 ∨
              fle ((aPts.getD (ia + 1) default).Time)
                  ((bPts.getD (ib + 1) default).Time) = true) then
            pairGo aName bName aPts bPts lapA lapB maxT fuel (ia + 1) ib ahead out2
          else
            pairGo aName bName aPts bPts lapA lapB maxT fuel ia (ib + 1) ahead out2
    else out

/-- Embedded `track.detectPair` (`eventdetection.go` lines 260-326). -/
def detectPair (aName bName : String) (aPts bPts : List MappedPoint) :
    List OvertakeEvent :=
  if aPts.length = 0 ∨ bPts.length = 0 then []
  else
    let lapA := lapLengthsFromMapped aPts
    let lapB := lapLengthsFromMapped bPts
    let maxT0 := (aPts.getD (aPts.length - 1) default).Time
    let maxT := if flt ((bPts.getD (bPts.length - 1) default).Time) maxT0 = true
                then (bPts.getD (bPts.length - 1) default).Time else maxT0
    pairGo aName bName aPts bPts lapA lapB maxT (aPts.length + bPts.length) 0 0 0 []

/-- Spec-side progress formula, written from the claim's wording: "(lap − 1)
plus relative arc length divided by that lap's observed length". -/
def progressSpec (p : MappedPoint) (lapLen : ℤ → F64) : F64 :=
  fadd (fq ((p.Lap - 1 : ℤ) : ℚ)) (fdiv p.RelS (lapLen p.Lap))

/-- Spec-side merge trace, written from the claim's wording: walk both
timelines in a time-ordered two-pointer merge (always advancing whichever
side has the earlier next timestamp), interpolating each side's progress at
the merged time; it records, per merge step, the merged time, the sign of
(progress A − progress B) and the two interpolated points. -/
def mergeTrace (aPts bPts : List MappedPoint) (lapA lapB : ℤ → F64) (maxT : F64) :
    ℕ → ℕ → ℕ → List (F64 × ℤ × MappedPoint × MappedPoint)
  | 0, _, _ => []
  | fuel + 1, ia, ib =>
    if ia < aPts.length ∧ ib < bPts.length then
      let ta := (aPts.getD ia default).Time
      let tb := (bPts.getD ib default).Time
      let t := if flt tb ta = true then tb else ta
      if flt maxT t = true then []
      else
        let opa := pointAtTimeMapped aPts t
        let opb := pointAtTimeMapped bPts t
        if opa = none ∨ opb = none then []
        else
          let pa := opa.getD default
          let pb := opb.getD default
          let s := signF (progressMapped pa lapA) (progressMapped pb lapB)
          if ia + 1 < aPts.length ∧ (bPts.length ≤ ib + 1 ∨
              fle ((aPts.getD (ia + 1) default).Time)
                  ((bPts.getD (ib + 1) default).Time) = true) then
            (t, s, pa, pb) :: mergeTrace aPts bPts lapA lapB maxT fuel (ia + 1) ib
          else (t, s, pa, pb) :: mergeTrace aPts bPts lapA lapB maxT fuel ia (ib + 1)
    else []

/-- Spec-side emission rule, written from the claim's wording: one overtake
event at every sign flip of (progress A − progress B) between consecutive
merge steps (opposite non-zero signs), attributed to the session now
ahead. -/
def flipEvents (aName bName : String) : ℤ → List (F64 × ℤ × MappedPoint × MappedPoint) →
    List OvertakeEvent
  | _, [] => []
  | prev, (t, s, pa, pb) :: rest =>
    (if prev ≠ 0 ∧ s ≠ 0 ∧ s ≠ prev then
      if 0 < s then
        [{ Source := aName, Target := bName, Time := t, Lap := pa.Lap,
           RelS := pa.RelS, MasterX := pa.MasterX, MasterY := pa.MasterY }]
      else
        [{ Source := bName, Target := aName, Time := t, Lap := pb.Lap,
           RelS := pb.RelS, MasterX := pb.MasterX, MasterY := pb.MasterY }]
    else []) ++ flipEvents aName bName s rest

/-- The code's merge loop emits exactly the spec-side flip events of the
spec-side merge trace, appended to the accumulator. -/
theorem pairGo_spec (aName bName : String) (aPts bPts : List MappedPoint)
    (lapA lapB : ℤ → F64) (maxT : F64) :
    ∀ (fuel ia ib : ℕ) (prev : ℤ) (out : List OvertakeEvent),
      pairGo aName bName aPts bPts lapA lapB maxT fuel ia ib prev out
        = out ++ flipEvents aName bName prev
            (mergeTrace aPts bPts lapA lapB maxT fuel ia ib) := by
  intro fuel
  induction fuel with
  | zero =>
    intro ia ib prev out
    simp [pairGo, mergeTrace, flipEvents]
  | succ n ih =>
    intro ia ib prev out
    simp only [pairGo, mergeTrace]
    by_cases h1 : ia < aPts.length ∧ ib < bPts.length
    · rw [if_pos h1, if_pos h1]
      by_cases h2 : flt maxT
          (if flt ((bPts.getD ib default).Time) ((aPts.getD ia default).Time) = true
           then (bPts.getD ib default).Time else (aPts.getD ia default).Time) = true
      · rw [if_pos h2, if_pos h2]
        simp [flipEvents]
      · rw [if_neg h2, if_neg h2]
        by_cases h3 : pointAtTimeMapped aPts
            (if flt ((bPts.getD ib default).Time) ((aPts.getD ia default).Time) = true
             then (bPts.getD ib default).Time else (aPts.getD ia default).Time) = none ∨
          pointAtTimeMapped bPts
            (if flt ((bPts.getD ib default).Time) ((aPts.getD ia default).Time) = true
             then (bPts.getD ib default).Time else (aPts.getD ia default).Time) = none
        · rw [if_pos h3, if_pos h3]
          simp [flipEvents]
        · rw [if_neg h3, if_neg h3]
          by_cases h4 : ia + 1 < aPts.length ∧ (bPts.length ≤ ib + 1 ∨
              fle ((aPts.getD (ia + 1) default).Time)
                  ((bPts.getD (ib + 1) default).Time) = true)
          · rw [if_pos h4, if_pos h4, ih]
            simp only [flipEvents]
            rw [List.append_assoc]
          · rw [if_neg h4, if_neg h4, ih]
            simp only [flipEvents]
            rw [List.append_assoc]
    · rw [if_neg h1, if_neg h1]
      simp [flipEvents]

/-- Session A of the crossing scenario: progress t/10 on lap 1. -/
def c5a : List MappedPoint :=
  [{ Time := fq 0, Lap := 1, RelS := fq 0 }, { Time := fq 2, Lap := 1, RelS := fq 2 },
   { Time := fq 4, Lap := 1, RelS := fq 4 }, { Time := fq 6, Lap := 1, RelS := fq 6 },
   { Time := fq 8, Lap := 1, RelS := fq 8 }, { Time := fq 10, Lap := 1, RelS := fq 10 }]

/-- Session B of the crossing scenario: progress (10 - t)/10 on lap 1; the
curves cross exactly once, at t = 5. -/
def c5b : List MappedPoint :=
  [{ Time := fq 0, Lap := 1, RelS := fq 10 }, { Time := fq 2, Lap := 1, RelS := fq 8 },
   { Time := fq 4, Lap := 1, RelS := fq 6 }, { Time := fq 6, Lap := 1, RelS := fq 4 },
   { Time := fq 8, Lap := 1, RelS := fq 2 }, { Time := fq 10, Lap := 1, RelS := fq 0 }]

/-- **C5**.  The overtake detector computes progress as (lap − 1) plus
relative arc length divided by the lap's observed length (whenever that
observed length is positive, matching the spec formula exactly); its merge
loop emits, over the spec-side time-ordered two-pointer merge trace,
exactly one event per sign flip of (progress A − progress B) between
consecutive merge steps, attributed to the session now ahead; and on two
synthetic progress curves crossing exactly once (at t = 5) it emits exactly
one overtake event, attributed to the session ahead after the crossing, at
the first merge step past the crossing. -/
theorem C5_theorem (aName bName : String) (aPts bPts : List MappedPoint)
    (lapLen : ℤ → F64) (p : MappedPoint)
    (hpos : flt (fq 0) (lapLen p.Lap) = true) :
    progressMapped p lapLen = progressSpec p lapLen ∧
    (∀ (lapA lapB : ℤ → F64) (maxT : F64) (fuel ia ib : ℕ) (prev : ℤ)
        (out : List OvertakeEvent),
      pairGo aName bName aPts bPts lapA lapB maxT fuel ia ib prev out
        = out ++ flipEvents aName bName prev
            (mergeTrace aPts bPts lapA lapB maxT fuel ia ib)) ∧
    detectPair "A" "B" c5a c5b
      = [{ Source := "A", Target := "B", Time := fq 6, Lap := 1, RelS := fq 6,
           MasterX := fq 0, MasterY := fq 0 }] := by
  refine ⟨?_, pairGo_spec aName bName aPts bPts, by decide⟩
  obtain ⟨q, hq, hv⟩ : ∃ q : ℚ, 0 < q ∧ lapLen p.Lap = F64.v q := by
    cases hl : lapLen p.Lap with
    | v q =>
      rw [hl] at hpos
      exact ⟨q, (flt_iff 0 q).mp hpos, rfl⟩
    | nf =>
      rw [hl] at hpos
      exact absurd hpos (by simp [flt])
  unfold progressMapped progressSpec
  dsimp only
  rw [hv]
  rw [if_neg ?_]
  intro hh
  simp only [fq, fle, decide_eq_true_eq] at hh
  exact absurd hh (not_le.mpr hq)

def c5nA : String := "A"

def c5nB : String := "B"

theorem C5_witness :
    flt (fq 0) (fq 10) = true ∧
    progressMapped { Time := fq 6, Lap := 1, RelS := fq 6 } (fun _ => fq 10)
      = progressSpec { Time := fq 6, Lap := 1, RelS := fq 6 } (fun _ => fq 10) :=
  ⟨by decide,
   (C5_theorem c5nA c5nB [] [] (fun _ => fq 10)
     { Time := fq 6, Lap := 1, RelS := fq 6 } (by decide)).1⟩
